import Mathlib

/-!
Verification of the tabmd table-converter core (src/dist/js/app.js, with the
near-duplicate copy src/unnamed/part_001 where the two copies differ).

JS strings are modelled as lists of characters (`Str`), JS arrays as Lean
lists, and the mutable `TableState` object as a record threaded through the
operations.  All definitions are translated from the source file; deviations
forced by the embedding (ASCII case folding, the deterministic reading of the
separator regex) are noted in the doc comment of the definition concerned.
-/

namespace Tabmd

/-- JS strings are modelled as lists of characters. -/
abbrev Str := List Char

/-- Convert a Lean string literal to the model's string type. -/
def toStr (s : String) : Str := s.data

/-- The character set removed by `String.prototype.trim` and matched by the
regex class `\s`: ECMAScript WhiteSpace plus LineTerminator. -/
def jsIsWs (c : Char) : Bool :=
  c = ' ' || c = '\t' || c = '\n' || c = '\r' ||
  c = Char.ofNat 11 || c = Char.ofNat 12 || c = Char.ofNat 160 ||
  c = Char.ofNat 5760 ||
  (8192 ≤ c.toNat && c.toNat ≤ 8202) ||
  c = Char.ofNat 8232 || c = Char.ofNat 8233 || c = Char.ofNat 8239 ||
  c = Char.ofNat 8287 || c = Char.ofNat 12288 || c = Char.ofNat 65279

/-- `String.prototype.trim`: strip leading and trailing whitespace. -/
def jsTrim (s : Str) : Str :=
  ((s.dropWhile jsIsWs).reverse.dropWhile jsIsWs).reverse

/-- `String.prototype.toLowerCase`, restricted to ASCII letters.  The Unicode
special lowercasings (dotted capital I, the Kelvin sign, …) never produce any
of the ASCII token strings this program compares against, so the restriction
does not change any comparison made by the code. -/
def jsToLower (c : Char) : Char :=
  if 'A' ≤ c && c ≤ 'Z' then Char.ofNat (c.toNat + 32) else c

/-- Character-wise `toLowerCase` of a whole string. -/
def jsLowerStr (s : Str) : Str := s.map jsToLower

/-- One step of `escapeHtml` (app.js lines 108-116).  The five chained global
replaces of the source are equivalent to a single character-wise expansion,
because no replacement entity contains a character that a later replace in the
chain would rewrite. -/
def escChar (c : Char) : Str :=
  if c = '&' then toStr "&amp;"
  else if c = '<' then toStr "&lt;"
  else if c = '>' then toStr "&gt;"
  else if c = '"' then toStr "&quot;"
  else if c = '\'' then toStr "&#39;"
  else [c]

/-- `escapeHtml` (app.js lines 108-116). -/
def escapeHtml (s : Str) : Str := (s.map escChar).flatten

/-- `isChecked` as it stands in src/dist/js/app.js lines 147-152.  Note the
token list in this copy is `['yes', 'true', 'y']`; it does not contain `'1'`. -/
def isChecked (value : Str) : Bool :=
  let val := jsTrim value
  let lower := jsLowerStr val
  [toStr "yes", toStr "true", toStr "y"].contains lower ||
  [toStr "✅", toStr "✔️", toStr "✔", toStr "✓"].contains val

/-- `isChecked` as it stands in src/unnamed/part_001 lines 147-152.  This copy
additionally accepts the token `'1'`. -/
def isChecked_p1 (value : Str) : Bool :=
  let val := jsTrim value
  let lower := jsLowerStr val
  [toStr "yes", toStr "true", toStr "1", toStr "y"].contains lower ||
  [toStr "✅", toStr "✔️", toStr "✔", toStr "✓"].contains val

/-- `isUnchecked` from src/dist/js/app.js lines 154-159 (no `'0'` token in
this copy). -/
def isUnchecked (value : Str) : Bool :=
  let val := jsTrim value
  let lower := jsLowerStr val
  [toStr "no", toStr "false", toStr "n"].contains lower ||
  [toStr "❌", toStr "✖️", toStr "✖", toStr "✗", toStr "×"].contains val

/-- `normalizeCheckValue` (app.js lines 161-165). -/
def normalizeCheckValue (value : Str) : Str :=
  if isChecked value then toStr "✅"
  else if isUnchecked value then toStr "❌"
  else value

/-- `String.prototype.split` on a single separator character. -/
def splitOnChar (sep : Char) : Str → List Str
  | [] => [[]]
  | c :: cs =>
    if c = sep then [] :: splitOnChar sep cs
    else
      match splitOnChar sep cs with
      | [] => [[c]]
      | s :: ss => (c :: s) :: ss

/-- The separator-row test regex of `detectMarkdownTable` (app.js line 217):
`^\s*\|?\s*:?-+:?\s*\|\s*`, read as a deterministic greedy parse.  Greedy
matching without backtracking is faithful here: at each optional or repeated
element, declining to consume the available character leads the next regex
element to fail on that same character, so the greedy choice never loses a
match. -/
def matchSep (line : Str) : Bool :=
  let r1 := line.dropWhile jsIsWs
  let r2 := match r1 with
    | '|' :: rest => rest
    | _ => r1
  let r3 := r2.dropWhile jsIsWs
  let r4 := match r3 with
    | ':' :: rest => rest
    | _ => r3
  let hyphens := r4.takeWhile (fun c => c = '-')
  let r5 := r4.dropWhile (fun c => c = '-')
  if hyphens.isEmpty then false
  else
    let r6 := match r5 with
      | ':' :: rest => rest
      | _ => r5
    let r7 := r6.dropWhile jsIsWs
    match r7 with
    | '|' :: _ => true
    | _ => false

/-- The separator-cell shape asserted by the claim: optional colons around
THREE-or-more hyphens (then, as in the code's regex, a closing pipe).  This
definition follows the claim's words, not the source, and exists only to be
compared against the source's `matchSep`. -/
def matchSepThree (line : Str) : Bool :=
  let r1 := line.dropWhile jsIsWs
  let r2 := match r1 with
    | '|' :: rest => rest
    | _ => r1
  let r3 := r2.dropWhile jsIsWs
  let r4 := match r3 with
    | ':' :: rest => rest
    | _ => r3
  let hyphens := r4.takeWhile (fun c => c = '-')
  let r5 := r4.dropWhile (fun c => c = '-')
  if hyphens.length < 3 then false
  else
    let r6 := match r5 with
      | ':' :: rest => rest
      | _ => r5
    let r7 := r6.dropWhile jsIsWs
    match r7 with
    | '|' :: _ => true
    | _ => false

/-- The non-blank lines of an input, as computed by the detector and the
parser: split on newline, keep lines whose trim is truthy (non-empty). -/
def nonBlankLines (input : Str) : List Str :=
  (splitOnChar '\n' input).filter (fun l => !(jsTrim l).isEmpty)

/-- `Parser.detectMarkdownTable` (app.js lines 212-220). -/
def detectMarkdownTable (input : Str) : Bool :=
  let lines := nonBlankLines input
  if lines.length < 2 then false
  else
    let hasPipes := lines.any (fun l => l.contains '|')
    let hasSeparator := lines.any matchSep
    hasPipes && hasSeparator

/-- The ALIGN enum (app.js line 7). -/
inductive Align
  | left
  | center
  | right
deriving DecidableEq, Repr

/-- The FORMAT enum (app.js line 6). -/
inductive Format
  | markdown
  | json
  | html
deriving DecidableEq, Repr

/-- The canonical table model: the `{headers, alignments, rows}` triple
produced by the parser and stored as a history snapshot (app.js lines 46-50,
249-253). -/
structure TableModel where
  headers : List Str
  alignments : List Align
  rows : List (List Str)
deriving DecidableEq, Repr

/-- The mutable `TableState` object (app.js lines 40-103): the live model
fields, the reorder-mode flag, the output format, and the history list with
its cursor.  The cursor is an `Int` because the code initialises it to -1. -/
structure TableState where
  headers : List Str
  rows : List (List Str)
  alignments : List Align
  isReorderMode : Bool
  outputFormat : Format
  history : List TableModel
  historyIndex : Int
deriving DecidableEq, Repr

/-- The snapshot pushed by `saveToHistory` (app.js lines 46-50).  The JS
spreads take a deep copy; on immutable Lean values the copy is the value. -/
def snapshotOf (s : TableState) : TableModel :=
  ⟨s.headers, s.alignments, s.rows⟩

/-- `Array.prototype.slice(0, e)` with a possibly negative end index (a
negative end counts from the end of the array). -/
def jsSliceTo (l : List TableModel) (e : Int) : List TableModel :=
  if 0 ≤ e then l.take e.toNat else l.take (l.length - e.natAbs)

/-- `TableState.saveToHistory` (app.js lines 45-60): truncate the redo branch,
push a snapshot of the live model, advance the cursor, and drop the oldest
entry (decrementing the cursor) when the list exceeds 50 entries. -/
def saveToHistory (s : TableState) : TableState :=
  let snapshot := snapshotOf s
  let history := jsSliceTo s.history (s.historyIndex + 1) ++ [snapshot]
  let historyIndex := s.historyIndex + 1
  if 50 < history.length then
    { s with history := history.tail, historyIndex := historyIndex - 1 }
  else
    { s with history := history, historyIndex := historyIndex }

/-- `TableState.undo` (app.js lines 62-72), returning the JS boolean together
with the updated state.  `history[historyIndex]` is within bounds in every
reachable state, so the `getD` default is never read. -/
def undo (s : TableState) : Bool × TableState :=
  if 0 < s.historyIndex then
    let historyIndex := s.historyIndex - 1
    let snapshot := s.history.getD historyIndex.toNat ⟨[], [], []⟩
    (true, { s with historyIndex := historyIndex, headers := snapshot.headers,
                    rows := snapshot.rows, alignments := snapshot.alignments })
  else
    (false, s)

/-- `TableState.redo` (app.js lines 74-84). -/
def redo (s : TableState) : Bool × TableState :=
  if s.historyIndex < (s.history.length : Int) - 1 then
    let historyIndex := s.historyIndex + 1
    let snapshot := s.history.getD historyIndex.toNat ⟨[], [], []⟩
    (true, { s with historyIndex := historyIndex, headers := snapshot.headers,
                    rows := snapshot.rows, alignments := snapshot.alignments })
  else
    (false, s)

/-- The state produced by `TableState.reset` (app.js lines 86-94), which is
also the constructor's initial state. -/
def initialState : TableState :=
  ⟨[], [], [], false, .markdown, [], -1⟩

/-- `TableState.reset` (app.js lines 86-94): every field is overwritten, so
the result does not depend on the previous state. -/
def resetState (_s : TableState) : TableState :=
  initialState

/-- One edit, as performed by every mutating code path (parseTable, cell and
header blur handlers, each TableOperation): save the current state to history,
then replace the live model fields.  The replacement values are arbitrary, so
a list of `TableModel`s covers every sequence of successful edits. -/
def applyEdit (m : TableModel) (s : TableState) : TableState :=
  let s1 := saveToHistory s
  { s1 with headers := m.headers, rows := m.rows, alignments := m.alignments }

/-- A sequence of edits applied in order. -/
def runEdits (es : List TableModel) (s : TableState) : TableState :=
  es.foldl (fun t m => applyEdit m t) s

/-- The history invariant of edit-only traces: the cursor sits on the last
entry and the list is bounded. -/
def HistInv (s : TableState) : Prop :=
  s.historyIndex = (s.history.length : Int) - 1 ∧ s.history.length ≤ 50

/-- First concrete edit state for the undo/redo analysis ("parse result"). -/
def mA : TableModel := ⟨[toStr "A"], [.left], [[toStr "x"]]⟩

/-- Second concrete edit ("add a column" applied to mA). -/
def mB : TableModel :=
  ⟨[toStr "A", toStr "New Column"], [.left, .left], [[toStr "x", []]]⟩

/-- The error notifications surfaced by the mutation operations (the NOTIFY
calls in app.js; names follow the spec's error taxonomy). -/
inductive MutErr
  | exitReorderFirst
  | cannotRemoveLastColumn
  | noColumnsDefined
  | noRowsToRemove
  | invalidRowIndex
  | invalidColumnIndex
  | insufficientRows
deriving DecidableEq, Repr

/-- `Array.prototype.splice(i, 1)`: remove the element at `i` (a no-op past
the end, as in JS). -/
def spliceRemove (i : Nat) (l : List α) : List α := l.take i ++ l.drop (i + 1)

/-- `Array.prototype.splice(i, 0, a)`: insert `a` at position `i` (clamped to
the end, as in JS). -/
def spliceInsert (i : Nat) (a : α) (l : List α) : List α :=
  l.take i ++ a :: l.drop i

/-- The `moveItem` helper of `reorderColumns` (app.js lines 792-796): read the
element at `from`, remove it, re-insert at `to`.  The only call sites (the
drop handlers) pass indices of existing DOM nodes, so only the in-range case
is reachable; for an out-of-range `from` — where JS would insert `undefined`,
a value outside this model's cell type — the list is left unchanged. -/
def jsMoveItem (f t : Nat) (l : List α) : List α :=
  if h : f < l.length then spliceInsert t (l.get ⟨f, h⟩) (spliceRemove f l)
  else l

/-- `TableOperations.addColumn` (app.js lines 626-640). -/
def addColumn (s : TableState) : TableState × Option MutErr :=
  if s.isReorderMode then (s, some .exitReorderFirst)
  else
    let s1 := saveToHistory s
    ({ s1 with headers := s1.headers ++ [toStr "New Column"],
               alignments := s1.alignments ++ [.left],
               rows := s1.rows.map (fun r => r ++ [[]]) }, none)

/-- `TableOperations.addRow` (app.js lines 642-660). -/
def addRow (s : TableState) : TableState × Option MutErr :=
  if s.isReorderMode then (s, some .exitReorderFirst)
  else if s.headers.length = 0 then (s, some .noColumnsDefined)
  else
    let s1 := saveToHistory s
    ({ s1 with rows := s1.rows ++ [List.replicate s1.headers.length []] }, none)

/-- `TableOperations.removeColumn` (app.js lines 662-683): removes the last
column. -/
def removeColumn (s : TableState) : TableState × Option MutErr :=
  if s.isReorderMode then (s, some .exitReorderFirst)
  else if s.headers.length ≤ 1 then (s, some .cannotRemoveLastColumn)
  else
    let s1 := saveToHistory s
    let lastIndex := s1.headers.length - 1
    ({ s1 with headers := spliceRemove lastIndex s1.headers,
               alignments := spliceRemove lastIndex s1.alignments,
               rows := s1.rows.map (spliceRemove lastIndex) }, none)

/-- `TableOperations.removeColumnAt` (app.js lines 685-709). -/
def removeColumnAt (i : Nat) (s : TableState) : TableState × Option MutErr :=
  if s.isReorderMode then (s, some .exitReorderFirst)
  else if s.headers.length ≤ 1 then (s, some .cannotRemoveLastColumn)
  else if s.headers.length ≤ i then (s, some .invalidColumnIndex)
  else
    let s1 := saveToHistory s
    ({ s1 with headers := spliceRemove i s1.headers,
               alignments := spliceRemove i s1.alignments,
               rows := s1.rows.map (spliceRemove i) }, none)

/-- `TableOperations.removeRow` (app.js lines 711-728): pops the last row. -/
def removeRow (s : TableState) : TableState × Option MutErr :=
  if s.isReorderMode then (s, some .exitReorderFirst)
  else if s.rows.length = 0 then (s, some .noRowsToRemove)
  else
    let s1 := saveToHistory s
    ({ s1 with rows := s1.rows.dropLast }, none)

/-- `TableOperations.removeRowAt` (app.js lines 730-752).  The bounds check
precedes the (therefore unreachable) zero-rows check, exactly as in the
source. -/
def removeRowAt (i : Nat) (s : TableState) : TableState × Option MutErr :=
  if s.isReorderMode then (s, some .exitReorderFirst)
  else if s.rows.length ≤ i then (s, some .invalidRowIndex)
  else if s.rows.length = 0 then (s, some .noRowsToRemove)
  else
    let s1 := saveToHistory s
    ({ s1 with rows := spliceRemove i s1.rows }, none)

/-- Digit-run token for the numeric-aware collation model. -/
inductive SortTok
  | num (n : Nat)
  | chr (c : Char)
deriving DecidableEq, Repr

/-- ASCII digit test. -/
def isDigitCh (c : Char) : Bool := '0' ≤ c && c ≤ '9'

/-- Tokenize a string into maximal digit runs (read as numbers, so leading
zeros do not change the value) and single non-digit characters. -/
def tokenizeNat (s : Str) : List SortTok :=
  let step := fun (acc : List SortTok × Option Nat) (c : Char) =>
    if isDigitCh c then
      (acc.1, some ((acc.2.getD 0) * 10 + (c.toNat - 48)))
    else
      match acc.2 with
      | some n => (acc.1 ++ [SortTok.num n, SortTok.chr c], none)
      | none => (acc.1 ++ [SortTok.chr c], none)
  let r := s.foldl step ([], none)
  match r.2 with
  | some n => r.1 ++ [SortTok.num n]
  | none => r.1

/-- Flattened primary-weight key of a token, following the ICU root collation
order on the modelled alphabet: the space character (weight class 0) orders
before digit runs (class 1, compared by numeric value as `numeric: true`
requires), which order before other characters (class 2, compared by code
point — for ASCII lowercase letters the root order).  Punctuation other than
the space, symbols and non-ASCII letters are outside the modelled alphabet;
the sort theorem restricts the first-column keys accordingly. -/
def tokKey : SortTok → List Nat
  | .num n => [1, n]
  | .chr c => if c = ' ' then [0, 0] else [2, c.toNat]

/-- The flattened collation key of a string. -/
def sortKey (s : Str) : List Nat := ((tokenizeNat s).map tokKey).flatten

/-- Lexicographic comparison of collation keys. -/
def lexNat : List Nat → List Nat → Ordering
  | [], [] => .eq
  | [], _ :: _ => .lt
  | _ :: _, [] => .gt
  | a :: as, b :: bs =>
    if a < b then .lt else if b < a then .gt else lexNat as bs

/-- The JS comparator's -1/0/1 view of an Ordering. -/
def ordToInt : Ordering → Int
  | .lt => -1
  | .eq => 0
  | .gt => 1

/-- Model of `a.localeCompare(b, undefined, {numeric: true, sensitivity:
'base'})` on the trimmed, lower-cased operands the comparator passes.  ICU
numeric collation compares maximal digit runs by numeric value; on the
alphabet of spaces, ASCII digits and ASCII lowercase letters the root primary
order is space < digits < letters, with letters in code-point order, which is
exactly the `tokKey` order.  Outside this alphabet (other punctuation,
symbols, locale-tailored letters) the model is not claimed faithful, and the
sort theorem's key hypothesis confines it to the faithful alphabet. -/
def localeCompareNat (a b : Str) : Int :=
  ordToInt (lexNat (sortKey a) (sortKey b))

/-- The comparator passed to `state.rows.sort` in `sortRows` (app.js lines
768-783): empty first-column values sort after everything, otherwise the
locale-aware numeric comparison of the trimmed, case-folded first cells. -/
def rowCompare (a b : List Str) : Int :=
  let aVal := jsLowerStr (jsTrim (a.headD []))
  let bVal := jsLowerStr (jsTrim (b.headD []))
  if aVal = [] && !(bVal = []) then 1
  else if bVal = [] && !(aVal = []) then -1
  else if aVal = [] && bVal = [] then 0
  else localeCompareNat aVal bVal

/-- The comparator as a Boolean "less or equal". -/
def rowLeB (a b : List Str) : Bool := rowCompare a b ≤ 0

/-- `state.rows.sort(comparator)`: ECMAScript requires `Array.prototype.sort`
to be stable, and for a consistent comparator the stable sorted permutation is
unique, so the JS call is modelled by the (stable) `List.mergeSort`. -/
def jsSortRows (rows : List (List Str)) : List (List Str) :=
  rows.mergeSort rowLeB

/-- `TableOperations.sortRows` (app.js lines 754-789). -/
def sortRows (s : TableState) : TableState × Option MutErr :=
  if s.isReorderMode then (s, some .exitReorderFirst)
  else if s.rows.length ≤ 1 then (s, some .insufficientRows)
  else
    let s1 := saveToHistory s
    ({ s1 with rows := jsSortRows s1.rows }, none)

/-- `TableOperations.reorderColumns` (app.js lines 791-801): `moveItem`
applied to headers, alignments and every row. -/
def reorderColumns (f t : Nat) (s : TableState) : TableState :=
  { s with headers := jsMoveItem f t s.headers,
           alignments := jsMoveItem f t s.alignments,
           rows := s.rows.map (jsMoveItem f t) }

/-- `TableOperations.reorderRows` (app.js lines 803-807). -/
def reorderRows (f t : Nat) (s : TableState) : TableState :=
  { s with rows := jsMoveItem f t s.rows }

/-- A column drop (app.js lines 578-587): when the drag actually moved, save
to history and reorder. -/
def dropReorderColumns (f t : Nat) (s : TableState) : TableState :=
  if f = t then s else reorderColumns f t (saveToHistory s)

/-- A row drop (app.js lines 588-601). -/
def dropReorderRows (f t : Nat) (s : TableState) : TableState :=
  if f = t then s else reorderRows f t (saveToHistory s)

/-- `TableOperations.duplicateRow` (app.js lines 809-818).  In reorder mode
the code returns silently.  The UI passes an index of an existing row; for an
out-of-range index (where JS would throw on spreading `undefined`) the row
list is left unchanged. -/
def duplicateRow (i : Nat) (s : TableState) : TableState × Option MutErr :=
  if s.isReorderMode then (s, none)
  else if h : i < (saveToHistory s).rows.length then
    ({ saveToHistory s with
       rows := spliceInsert (i + 1) ((saveToHistory s).rows.get ⟨i, h⟩)
                 (saveToHistory s).rows }, none)
  else (saveToHistory s, none)

/-- `TableOperations.insertRowAfter` (app.js lines 820-829). -/
def insertRowAfter (i : Nat) (s : TableState) : TableState × Option MutErr :=
  if s.isReorderMode then (s, none)
  else
    let s1 := saveToHistory s
    ({ s1 with rows := spliceInsert (i + 1) (List.replicate s1.headers.length []) s1.rows }, none)

/-- The structural mutation operations of claim C3, with the indices their
call sites pass. -/
inductive TableOp
  | addColumn
  | addRow
  | removeColumn
  | removeColumnAt (i : Nat)
  | removeRow
  | removeRowAt (i : Nat)
  | reorderColumns (f t : Nat)
  | reorderRows (f t : Nat)
  | sortRows
  | duplicateRow (i : Nat)
  | insertRowAfter (i : Nat)

/-- Apply one operation (reorders as performed by the drop handlers). -/
def applyOp (op : TableOp) (s : TableState) : TableState :=
  match op with
  | .addColumn => (addColumn s).1
  | .addRow => (addRow s).1
  | .removeColumn => (removeColumn s).1
  | .removeColumnAt i => (removeColumnAt i s).1
  | .removeRow => (removeRow s).1
  | .removeRowAt i => (removeRowAt i s).1
  | .reorderColumns f t => dropReorderColumns f t s
  | .reorderRows f t => dropReorderRows f t s
  | .sortRows => (sortRows s).1
  | .duplicateRow i => (duplicateRow i s).1
  | .insertRowAfter i => (insertRowAfter i s).1

/-- Apply a sequence of operations in order. -/
def applyOps (ops : List TableOp) (s : TableState) : TableState :=
  ops.foldl (fun t op => applyOp op t) s

/-- The structural invariant of claim C3: alignments parallel the headers and
every row is exactly as long as the header list. -/
def WF (s : TableState) : Prop :=
  s.alignments.length = s.headers.length ∧
  ∀ r ∈ s.rows, r.length = s.headers.length

instance (s : TableState) : Decidable (WF s) := by
  unfold WF
  infer_instance
/-- Concrete valid start state for the C3 witness. -/
def sWf : TableState :=
  ⟨[toStr "Name", toStr "Done"], [[toStr "a", toStr "yes"], [toStr "b", toStr "no"]],
   [.left, .center], false, .markdown, [], -1⟩

/-- A one-column, zero-row state used in the C5 witness. -/
def sOneCol : TableState :=
  ⟨[toStr "Name"], [], [.left], false, .markdown, [], -1⟩

/-- A zero-column state used in the C5 witness. -/
def sNoCols : TableState :=
  ⟨[], [], [], false, .markdown, [], -1⟩

/-- The collation signature the comparator effectively orders rows by: empty
first-column keys above everything, otherwise the flattened collation key. -/
def rowSig (r : List Str) : List Nat :=
  let v := jsLowerStr (jsTrim (r.headD []))
  if v = [] then [1] else 0 :: sortKey v

/-- A row whose first-column value is empty after trimming. -/
def rowEmptyKey (r : List Str) : Bool := jsLowerStr (jsTrim (r.headD [])) = []

/-- Concrete state for scenario D: one column, first-column values
"Item 10", "Item 2", "", "Item 1". -/
def sD : TableState :=
  ⟨[toStr "Name"], [[toStr "Item 10"], [toStr "Item 2"], [[]], [toStr "Item 1"]],
   [.left], false, .markdown, [], -1⟩

/-- Model of the plain two-argument-free `aVal.localeCompare(bVal)` used by
the older `sortRows` copy: lexicographic comparison by code point.  On the
alphabet of spaces, ASCII digits and ASCII lowercase letters (the operands
are lower-cased first) the ICU root primary order space < digits < letters
coincides with code-point order, so this is faithful for the inputs compared
here; no numeric option is passed, so digit runs are NOT compared as
numbers. -/
def plainLocaleCompare (a b : Str) : Int :=
  ordToInt (lexNat (a.map Char.toNat) (b.map Char.toNat))

/-- The comparator of `TableOperations.sortRows` in `src/unnamed/part_001`
(lines 688-706): `(a[0] || '').toLowerCase().localeCompare(...)` — the first
cells are lower-cased but NOT trimmed, there is no `numeric: true`, and there
are no branches placing empty values last. -/
def rowCompare_p1 (a b : List Str) : Int :=
  plainLocaleCompare (jsLowerStr (a.headD [])) (jsLowerStr (b.headD []))

/-- The part_001 comparator as a Boolean "less or equal". -/
def rowLeB_p1 (a b : List Str) : Bool := rowCompare_p1 a b ≤ 0

/-- The stable `state.rows.sort` call of the part_001 copy. -/
def jsSortRows_p1 (rows : List (List Str)) : List (List Str) :=
  rows.mergeSort rowLeB_p1

/-- `TableOperations.sortRows` as it reads in `src/unnamed/part_001` lines
688-706: the reorder-mode guard returns silently (no notification in this
copy, modelled as no error), fewer than 2 rows notifies an error and changes
nothing, otherwise the state is saved and the rows sorted by
`rowCompare_p1`. -/
def sortRows_p1 (s : TableState) : TableState × Option MutErr :=
  if s.isReorderMode then (s, none)
  else if s.rows.length ≤ 1 then (s, some .insufficientRows)
  else
    let s1 := saveToHistory s
    ({ s1 with rows := jsSortRows_p1 s1.rows }, none)

/-- Remove every occurrence of `**` — the global regex replace
`replace(/\*\*/g, '')`, which deletes leftmost non-overlapping star pairs. -/
def stripStars : Str → Str
  | '*' :: '*' :: rest => stripStars rest
  | c :: rest => c :: stripStars rest
  | [] => []

/-- The per-cell value the JSON formatter emits (app.js line 347). -/
def jsonCellValue (v : Str) : Str :=
  if isChecked v then toStr "✅" else if isUnchecked v then toStr "❌" else v

/-- JS object property assignment `obj[k] = v`: replaces the value in place
when the key already exists (keeping its original insertion position),
otherwise appends the new property. -/
def jsObjInsert (k : Str) (v : α) : List (Str × α) → List (Str × α)
  | [] => [(k, v)]
  | (k', v') :: rest =>
    if k' = k then (k, v) :: rest else (k', v') :: jsObjInsert k v rest

/-- The inner object built for one row (app.js lines 344-348): one property
per header index 1..C-1, with `**` stripped from the header and the
Value-Normalizer classification applied to the cell.  When the row is shorter
than the header list, `row[i]` is `undefined` and the resulting `undefined`
property is dropped again by `JSON.stringify`, so no property is recorded. -/
def jsonRowObject (headers row : List Str) : List (Str × Str) :=
  (List.range' 1 (headers.length - 1)).foldl
    (fun acc i =>
      match row[i]? with
      | some v => jsObjInsert (stripStars (headers.getD i [])) (jsonCellValue v) acc
      | none => acc)
    []

/-- The JSON formatter (app.js lines 337-352), modelled as the object the
forEach builds: an insertion-ordered association list keyed by the
`**`-stripped first cell.  A falsy key — the empty string after stripping, or
a missing first cell — skips the row.  `JSON.stringify` on this string-keyed
object only prints it (its special ordering of integer-like keys changes the
printed order, never the mapping), so the object itself is the model. -/
def jsonFormatter (m : TableModel) : List (Str × List (Str × Str)) :=
  m.rows.foldl
    (fun acc row =>
      match row.head? with
      | none => acc
      | some c0 =>
        if stripStars c0 = [] then acc
        else jsObjInsert (stripStars c0) (jsonRowObject m.headers row) acc)
    []
/-- One step of the JS forEach: insert the optional key/value pair a source
element contributes. -/
def optInsertStep {β γ} (W : γ → Option (Str × β))
    (a : List (Str × β)) (x : γ) : List (Str × β) :=
  match W x with
  | some kv => jsObjInsert kv.1 kv.2 a
  | none => a

/-- The per-row key/value pair the JSON formatter inserts, when the row is not
skipped. -/
def jsonRowEntry (headers : List Str) (row : List Str) : Option (Str × List (Str × Str)) :=
  match row.head? with
  | none => none
  | some c0 =>
    if stripStars c0 = [] then none
    else some (stripStars c0, jsonRowObject headers row)

/-- Valid model exposing both deviations from the claim: a first cell that is
whitespace (empty after trimming, but truthy, so it DOES get a key) and `**`
markers (stripped from keys and headers, so the verbatim values are not
used). -/
def mStars : TableModel :=
  ⟨[toStr "**H**", toStr "Done"], [.left, .left],
   [[toStr " ", toStr "yes"], [toStr "**T**", toStr "no"]]⟩

/-- Scenario C model: headers Name/Done, rows Task1/yes and Task2/no. -/
def mTasks : TableModel :=
  ⟨[toStr "Name", toStr "Done"], [.left, .left],
   [[toStr "Task1", toStr "yes"], [toStr "Task2", toStr "no"]]⟩

/-- `Parser.parseRow` (app.js lines 314-321): split on pipes, drop the cell at
index 0 and the cell at the last index when they trim to empty, then trim
every kept cell.  The source's single `filter` with index tests is expressed
as two conditional drops: the index-0 test can only remove the head and the
last-index test only the final element, and dropping the head never changes
which element is last (when both tests hit the same single element it is
dropped once either way).  `dropEdgeHead` drops the first split cell when it
trims to empty (the index-0 test of the filter). -/
def dropEdgeHead (parts : List Str) : List Str :=
  match parts with
  | p :: rest => if (jsTrim p).isEmpty then rest else parts
  | [] => []

/-- Drop the last split cell when it trims to empty (the last-index test of
the filter). -/
def dropEdgeLast (l : List Str) : List Str :=
  match l.getLast? with
  | some q => if (jsTrim q).isEmpty then l.dropLast else l
  | none => l

def parseRow (row : Str) : List Str :=
  (dropEdgeLast (dropEdgeHead (splitOnChar '|' row))).map jsTrim

/-- Alignment inference from one separator cell (app.js lines 235-240):
both-sided colon is CENTER, trailing colon RIGHT, otherwise LEFT. -/
def alignOfSep (sep : Str) : Align :=
  let t := jsTrim sep
  if t.head? = some ':' ∧ t.getLast? = some ':' then .center
  else if t.getLast? = some ':' then .right
  else .left

/-- Row-shape normalization (app.js lines 243-246): pad with empty cells on
the right up to the header count, then truncate to the header count. -/
def padTruncate (n : Nat) (row : List Str) : List Str :=
  (row ++ List.replicate (n - row.length) []).take n

deriving instance DecidableEq for Except

/-- `Parser.parseMarkdown` (app.js lines 222-254). -/
def parseMarkdown (input : Str) : Except Str TableModel :=
  let lines := (splitOnChar '\n' (jsTrim input)).filter (fun l => !(jsTrim l).isEmpty)
  if lines.length < 2 then
    .error (toStr "Markdown table must have at least a header and separator row")
  else
    let headers := parseRow (lines.getD 0 [])
    let separators := parseRow (lines.getD 1 [])
    if headers.length ≠ separators.length then
      .error (toStr "Header and separator row must have the same number of columns")
    else
      .ok { headers := headers.map escapeHtml,
            alignments := separators.map alignOfSep,
            rows := ((lines.drop 2).map
                (fun line => padTruncate headers.length (parseRow line))).map
              (fun row => row.map (fun cell => escapeHtml (normalizeCheckValue cell))) }

/-- `Array.prototype.join(sep)`. -/
def joinSep (sep : Str) : List Str → Str
  | [] => []
  | [c] => c
  | c :: cs => c ++ sep ++ joinSep sep cs

/-- The ALIGN_MARKDOWN separator tokens (app.js lines 8-12). -/
def alignMarkdown : Align → Str
  | .center => toStr ":---:"
  | .right => toStr "---:"
  | .left => toStr ":---"

/-- One serialized Markdown table line. -/
def mdLine (cells : List Str) : Str :=
  toStr "| " ++ joinSep (toStr " | ") cells ++ toStr " |"

/-- `Formatters[FORMAT.MARKDOWN]` (app.js lines 326-335) as a function of the
model.  The `[header, separator, rows].filter(Boolean).join('\n')` of the
source drops exactly the rows entry, and only when the table has no rows (the
header and separator strings always start with a pipe and are truthy; the
rows string is empty iff the row list is). -/
def serializeMarkdown (m : TableModel) : Str :=
  let header := mdLine m.headers
  let separator := mdLine (m.alignments.map alignMarkdown)
  let rowsStr := joinSep (toStr "\n")
    (m.rows.map (fun row => mdLine (row.map normalizeCheckValue)))
  if m.rows.isEmpty then header ++ toStr "\n" ++ separator
  else header ++ toStr "\n" ++ separator ++ toStr "\n" ++ rowsStr
/-- A string whose first and last characters (when they exist) are not
whitespace; such strings are fixed points of trim. -/
def GoodEnds (s : Str) : Prop :=
  (∀ x ∈ s.head?, jsIsWs x = false) ∧ (∀ x ∈ s.getLast?, jsIsWs x = false)

/-- Strings on which escapeHtml acts as the identity (no `&`, `<`, `>`, `"`
or `'`). -/
def NoEsc (s : Str) : Prop := ∀ c ∈ s, escChar c = [c]

/-- Every character of every replacement entity. -/
def entityChars : Str := toStr "&amp;ltgquo#39;"

/-- The padded form in which a serialized cell sits between two pipes. -/
def padCell (c : Str) : Str := ' ' :: (c ++ [' '])

/-- A well-formed model cell: trim-stable ends, no pipe, no newline. -/
def GoodCell (c : Str) : Prop := GoodEnds c ∧ '|' ∉ c ∧ '\n' ∉ c

instance (s : Str) : Decidable (NoEsc s) :=
  inferInstanceAs (Decidable (∀ c ∈ s, escChar c = [c]))

def cexRoundIn : Str := toStr "| A&B |\n| --- |"

def mAmp : TableModel := ⟨[toStr "A&amp;B"], [Align.left], []⟩

def cwIn : Str := toStr "| A | B |\n| :--- | ---: |\n| q | r |"

def cwM : TableModel :=
  ⟨[toStr "A", toStr "B"], [Align.left, Align.right], [[toStr "q", toStr "r"]]⟩

/-- C6 (counterexample): the claim's token set contains "1", but `isChecked`
in src/dist/js/app.js does not accept "1": at the input "1" the claimed
equivalence is false. -/
theorem c6_counterexample :
    ¬ (isChecked (toStr "1") = true ↔
      (jsLowerStr (jsTrim (toStr "1")) ∈
          [toStr "yes", toStr "true", toStr "1", toStr "y"] ∨
       jsTrim (toStr "1") ∈ [toStr "✅", toStr "✔️", toStr "✔", toStr "✓"])) := by
  decide

/-- C6 (amended): `isChecked` of the dist copy accepts exactly the trimmed,
case-folded tokens {"yes","true","y"} (without "1") or the trimmed, unfolded
symbols {✅,✔️,✔,✓}; the copy in src/unnamed/part_001 additionally accepts the
token "1", exactly as the claim states. -/
theorem c6_amended :
    (∀ v : Str, isChecked v = true ↔
      (jsLowerStr (jsTrim v) ∈ [toStr "yes", toStr "true", toStr "y"] ∨
       jsTrim v ∈ [toStr "✅", toStr "✔️", toStr "✔", toStr "✓"])) ∧
    (∀ v : Str, isChecked_p1 v = true ↔
      (jsLowerStr (jsTrim v) ∈ [toStr "yes", toStr "true", toStr "1", toStr "y"] ∨
       jsTrim v ∈ [toStr "✅", toStr "✔️", toStr "✔", toStr "✓"])) := by
  constructor <;> intro v <;>
    simp [isChecked, isChecked_p1, List.contains, List.elem_iff]

/-- C8 (counterexample): the input "| a |\n| - |" has pipes but no line whose
separator cell has three or more hyphens, yet `detectMarkdownTable` detects it
as a Markdown table, refuting the claimed necessity of a three-plus-hyphen
separator line. -/
theorem c8_counterexample :
    detectMarkdownTable (toStr "| a |\n| - |") = true ∧
    (∀ l ∈ nonBlankLines (toStr "| a |\n| - |"), matchSepThree l = false) := by
  decide

/-- C8 (amended): detection returns true iff there are at least two non-blank
lines, some line contains a pipe, and some line matches the separator shape of
the code's regex — optional colons around ONE-or-more hyphens followed by a
pipe (not three-or-more as claimed). -/
theorem c8_amended (input : Str) :
    detectMarkdownTable input = true ↔
      (2 ≤ (nonBlankLines input).length ∧
       (∃ l ∈ nonBlankLines input, '|' ∈ l) ∧
       (∃ l ∈ nonBlankLines input, matchSep l = true)) := by
  by_cases h : (nonBlankLines input).length < 2
  · simp [detectMarkdownTable, h]
  · simp [detectMarkdownTable, h, List.any_eq_true, List.contains, List.elem_iff]
    omega
theorem histInv_initial : HistInv initialState := by
  constructor <;> simp [initialState]

theorem jsSliceTo_full (s : TableState) (h : HistInv s) :
    jsSliceTo s.history (s.historyIndex + 1) = s.history := by
  obtain ⟨hidx, hlen⟩ := h
  have h0 : 0 ≤ s.historyIndex + 1 := by omega
  rw [jsSliceTo, if_pos h0]
  have he : (s.historyIndex + 1).toNat = s.history.length := by omega
  rw [he, List.take_length]

theorem saveToHistory_eq_full (s : TableState) (h : HistInv s)
    (h50 : s.history.length = 50) :
    saveToHistory s =
      { s with history := s.history.tail ++ [snapshotOf s],
               historyIndex := s.historyIndex } := by
  have htake := jsSliceTo_full s h
  have hcond : 50 < (s.history ++ [snapshotOf s]).length := by
    simp; omega
  obtain ⟨a, t, hS⟩ : ∃ a t, s.history = a :: t := by
    cases hS : s.history with
    | nil => rw [hS] at h50; simp at h50
    | cons a t => exact ⟨a, t, rfl⟩
  rw [saveToHistory]
  simp only [htake]
  rw [if_pos hcond, hS]
  simp only [List.cons_append, List.tail_cons]
  congr 1
  omega

theorem saveToHistory_eq_push (s : TableState) (h : HistInv s)
    (h50 : s.history.length ≠ 50) :
    saveToHistory s =
      { s with history := s.history ++ [snapshotOf s],
               historyIndex := s.historyIndex + 1 } := by
  obtain ⟨hidx, hlen⟩ := h
  have htake := jsSliceTo_full s ⟨hidx, hlen⟩
  have hcond : ¬ 50 < (s.history ++ [snapshotOf s]).length := by
    simp; omega
  rw [saveToHistory]
  simp only [htake]
  rw [if_neg hcond]

theorem saveToHistory_spec (s : TableState) (h : HistInv s) :
    HistInv (saveToHistory s) ∧
    (saveToHistory s).history.getLast? = some (snapshotOf s) ∧
    (if s.history.length = 50 then
       (saveToHistory s).history = s.history.tail ++ [snapshotOf s] ∧
       (saveToHistory s).historyIndex = s.historyIndex
     else
       (saveToHistory s).history = s.history ++ [snapshotOf s] ∧
       (saveToHistory s).historyIndex = s.historyIndex + 1) := by
  obtain ⟨hidx, hlen⟩ := h
  by_cases h50 : s.history.length = 50
  · rw [saveToHistory_eq_full s ⟨hidx, hlen⟩ h50, if_pos h50]
    cases hS : s.history with
    | nil => rw [hS] at h50; simp at h50
    | cons a t =>
      rw [hS] at h50 hidx hlen
      simp only [List.length_cons] at h50 hidx hlen
      refine ⟨⟨?_, ?_⟩, ?_, rfl, rfl⟩
      · simp only [hS, List.tail_cons, List.length_append, List.length_cons,
          List.length_nil]
        omega
      · simp only [hS, List.tail_cons, List.length_append, List.length_cons,
          List.length_nil]
        omega
      · simp [hS, List.getLast?_concat]
  · rw [saveToHistory_eq_push s ⟨hidx, hlen⟩ h50, if_neg h50]
    refine ⟨⟨?_, ?_⟩, ?_, rfl, rfl⟩
    · simp only [List.length_append, List.length_cons, List.length_nil]
      omega
    · simp only [List.length_append, List.length_cons, List.length_nil]
      omega
    · simp [List.getLast?_concat]

theorem histInv_applyEdit (m : TableModel) (s : TableState) (h : HistInv s) :
    HistInv (applyEdit m s) := by
  have := (saveToHistory_spec s h).1
  obtain ⟨h1, h2⟩ := this
  exact ⟨h1, h2⟩

theorem histInv_runEdits (es : List TableModel) (s : TableState) (h : HistInv s) :
    HistInv (runEdits es s) := by
  induction es generalizing s with
  | nil => exact h
  | cons e es ih =>
    rw [runEdits, List.foldl_cons]
    exact ih _ (histInv_applyEdit e s h)
/-- C2 (counterexample): after the two edits mA, mB from the initial state,
undo() succeeds and the immediately following redo() returns true, but the
model it restores is mA, not the pre-undo live model mB: every edit pushes its
PRE-state to history before mutating, so the pre-undo live state was never
recorded and cannot be restored. -/
theorem c2_counterexample :
    (undo (runEdits [mA, mB] initialState)).1 = true ∧
    (redo (undo (runEdits [mA, mB] initialState)).2).1 = true ∧
    (redo (undo (runEdits [mA, mB] initialState)).2).2.headers ≠
      (runEdits [mA, mB] initialState).headers := by
  decide

/-- C2 (amended): when undo() succeeds (cursor positive, and within the list
as it is in every reachable state), the immediately following redo() returns
true and restores headers, rows and alignments to the history entry at the
pre-undo cursor — which equals the pre-undo live model exactly when the live
model coincides with that entry; and redo() issued with no prior undo() (any
state reached from the initial state by edits alone) returns false and leaves
everything unchanged. -/
theorem c2_amended :
    (∀ s : TableState, 0 < s.historyIndex →
      s.historyIndex < (s.history.length : Int) →
      (undo s).1 = true ∧ (redo (undo s).2).1 = true ∧
      (redo (undo s).2).2.headers =
        (s.history.getD s.historyIndex.toNat ⟨[], [], []⟩).headers ∧
      (redo (undo s).2).2.rows =
        (s.history.getD s.historyIndex.toNat ⟨[], [], []⟩).rows ∧
      (redo (undo s).2).2.alignments =
        (s.history.getD s.historyIndex.toNat ⟨[], [], []⟩).alignments ∧
      (snapshotOf s = s.history.getD s.historyIndex.toNat ⟨[], [], []⟩ →
        (redo (undo s).2).2 = s)) ∧
    (∀ es : List TableModel,
      redo (runEdits es initialState) = (false, runEdits es initialState)) := by
  constructor
  · intro s h1 h2
    obtain ⟨hd, rws, al, rm, fmt, hist, idx⟩ := s
    simp only at h1 h2
    simp only [undo, redo, snapshotOf, if_pos h1]
    have hg : idx - 1 < (hist.length : Int) - 1 := by omega
    rw [if_pos hg]
    have hplus : idx - 1 + 1 = idx := by omega
    rw [hplus]
    refine ⟨by trivial, by trivial, by trivial, by trivial, by trivial, ?_⟩
    intro hsnap
    rw [TableModel.mk.injEq] at hsnap
    obtain ⟨e1, e2, e3⟩ := hsnap
    rw [TableState.mk.injEq]
    exact ⟨e1.symm, e3.symm, e2.symm, rfl, rfl, rfl, rfl⟩
  · intro es
    have hinv := histInv_runEdits es initialState histInv_initial
    obtain ⟨hidx, _⟩ := hinv
    rw [redo, if_neg (by omega)]
/-- C2 (witness): the amended theorem applied at the concrete two-edit state,
and the redo-after-edits-only no-op applied after one edit. -/
theorem c2_amended_witness :
    (0 < (runEdits [mA, mB] initialState).historyIndex ∧
     (runEdits [mA, mB] initialState).historyIndex <
       ((runEdits [mA, mB] initialState).history.length : Int)) ∧
    ((undo (runEdits [mA, mB] initialState)).1 = true ∧
     (redo (undo (runEdits [mA, mB] initialState)).2).1 = true) ∧
    redo (runEdits [mA] initialState) = (false, runEdits [mA] initialState) :=
  ⟨⟨by decide, by decide⟩,
   ⟨(c2_amended.1 _ (by decide) (by decide)).1,
    (c2_amended.1 _ (by decide) (by decide)).2.1⟩,
   c2_amended.2 [mA]⟩

/-- C4: along every sequence of saveToHistory calls (one per edit) the history
never exceeds 50 entries; the next saveToHistory leaves the cursor on the
entry just pushed, which is the last entry of the list; and when the list
would exceed 50 the oldest entry is dropped and the cursor decremented (so it
ends where it started), otherwise the entry is appended and the cursor
advances. -/
theorem c4_history_bound (es : List TableModel) :
    (runEdits es initialState).history.length ≤ 50 ∧
    (saveToHistory (runEdits es initialState)).history.length ≤ 50 ∧
    (saveToHistory (runEdits es initialState)).historyIndex =
      ((saveToHistory (runEdits es initialState)).history.length : Int) - 1 ∧
    (saveToHistory (runEdits es initialState)).history.getLast? =
      some (snapshotOf (runEdits es initialState)) ∧
    (if (runEdits es initialState).history.length = 50 then
       (saveToHistory (runEdits es initialState)).history =
         (runEdits es initialState).history.tail ++
           [snapshotOf (runEdits es initialState)] ∧
       (saveToHistory (runEdits es initialState)).historyIndex =
         (runEdits es initialState).historyIndex
     else
       (saveToHistory (runEdits es initialState)).history =
         (runEdits es initialState).history ++
           [snapshotOf (runEdits es initialState)] ∧
       (saveToHistory (runEdits es initialState)).historyIndex =
         (runEdits es initialState).historyIndex + 1) := by
  have hinv := histInv_runEdits es initialState histInv_initial
  obtain ⟨hspec1, hspec2, hspec3⟩ := saveToHistory_spec _ hinv
  exact ⟨hinv.2, hspec1.2, hspec1.1, hspec2, hspec3⟩

/-- C10: reset empties headers, rows and alignments, discards the whole
history and puts the cursor at -1; immediately afterwards both undo() and
redo() return false and leave the state unchanged, so no pre-clear state is
recoverable through history. -/
theorem c10_reset_clears (s : TableState) :
    resetState s = ⟨[], [], [], false, .markdown, [], -1⟩ ∧
    undo (resetState s) = (false, resetState s) ∧
    redo (resetState s) = (false, resetState s) :=
  ⟨rfl, rfl, rfl⟩
theorem length_spliceRemove (i : Nat) (l : List α) :
    (spliceRemove i l).length = l.length - (if i < l.length then 1 else 0) := by
  simp [spliceRemove]
  split <;> omega

theorem length_spliceInsert (i : Nat) (a : α) (l : List α) :
    (spliceInsert i a l).length = l.length + 1 := by
  simp [spliceInsert]
  omega

theorem length_jsMoveItem (f t : Nat) (l : List α) :
    (jsMoveItem f t l).length = l.length := by
  rw [jsMoveItem]
  split
  · next h => rw [length_spliceInsert, length_spliceRemove, if_pos h]; omega
  · rfl

theorem mem_spliceRemove {a : α} {i : Nat} {l : List α}
    (hm : a ∈ spliceRemove i l) : a ∈ l := by
  rw [spliceRemove] at hm
  rcases List.mem_append.mp hm with h | h
  · exact List.take_subset _ _ h
  · exact List.drop_subset _ _ h

theorem mem_spliceInsert {a x : α} {i : Nat} {l : List α}
    (hm : a ∈ spliceInsert i x l) : a = x ∨ a ∈ l := by
  rw [spliceInsert] at hm
  rcases List.mem_append.mp hm with h | h
  · exact Or.inr (List.take_subset _ _ h)
  · rcases List.mem_cons.mp h with h | h
    · exact Or.inl h
    · exact Or.inr (List.drop_subset _ _ h)

theorem mem_jsMoveItem {a : α} {f t : Nat} {l : List α}
    (hm : a ∈ jsMoveItem f t l) : a ∈ l := by
  rw [jsMoveItem] at hm
  split at hm
  · next h =>
    rcases mem_spliceInsert hm with h' | h'
    · exact h' ▸ List.get_mem l f h
    · exact mem_spliceRemove h'
  · exact hm

theorem saveToHistory_model (s : TableState) :
    (saveToHistory s).headers = s.headers ∧ (saveToHistory s).rows = s.rows ∧
    (saveToHistory s).alignments = s.alignments := by
  rw [saveToHistory]
  split <;> exact ⟨rfl, rfl, rfl⟩

theorem wf_saveToHistory {s : TableState} (h : WF s) : WF (saveToHistory s) := by
  obtain ⟨m1, m2, m3⟩ := saveToHistory_model s
  unfold WF at h ⊢
  rw [m1, m2, m3]
  exact h

theorem wf_applyOp (op : TableOp) (s : TableState) (h : WF s) : WF (applyOp op s) := by
  obtain ⟨m1, m2, m3⟩ := saveToHistory_model s
  have hsv : WF (saveToHistory s) := wf_saveToHistory h
  obtain ⟨ha, hr⟩ := h
  cases op with
  | addColumn =>
    rw [applyOp, addColumn]
    split
    · exact ⟨ha, hr⟩
    · refine ⟨?_, ?_⟩
      · simp [m1, m3, ha]
      · intro r hm
        simp only [m1, m2, List.mem_map] at hm ⊢
        obtain ⟨r0, hr0, rfl⟩ := hm
        simp [hr r0 hr0]
  | addRow =>
    rw [applyOp, addRow]
    split
    · exact ⟨ha, hr⟩
    · split
      · exact ⟨ha, hr⟩
      · refine ⟨by simp [m1, m3, ha], ?_⟩
        intro r hm
        simp only [m1, m2] at hm ⊢
        rcases List.mem_append.mp hm with hm | hm
        · exact hr r hm
        · simp at hm
          simp [hm]
  | removeColumn =>
    rw [applyOp, removeColumn]
    split
    · exact ⟨ha, hr⟩
    · split
      · exact ⟨ha, hr⟩
      · refine ⟨?_, ?_⟩
        · simp only [m1, m3]
          rw [length_spliceRemove, length_spliceRemove, ha]
        · intro r hm
          simp only [m1, m2, List.mem_map] at hm ⊢
          obtain ⟨r0, hr0, rfl⟩ := hm
          rw [length_spliceRemove, length_spliceRemove, hr r0 hr0]
  | removeColumnAt i =>
    rw [applyOp, removeColumnAt]
    split
    · exact ⟨ha, hr⟩
    · split
      · exact ⟨ha, hr⟩
      · split
        · exact ⟨ha, hr⟩
        · refine ⟨?_, ?_⟩
          · simp only [m1, m3]
            rw [length_spliceRemove, length_spliceRemove, ha]
          · intro r hm
            simp only [m1, m2, List.mem_map] at hm ⊢
            obtain ⟨r0, hr0, rfl⟩ := hm
            rw [length_spliceRemove, length_spliceRemove, hr r0 hr0]
  | removeRow =>
    rw [applyOp, removeRow]
    split
    · exact ⟨ha, hr⟩
    · split
      · exact ⟨ha, hr⟩
      · refine ⟨by simp [m1, m3, ha], ?_⟩
        intro r hm
        simp only [m1, m2] at hm ⊢
        exact hr r (List.dropLast_subset _ hm)
  | removeRowAt i =>
    rw [applyOp, removeRowAt]
    split
    · exact ⟨ha, hr⟩
    · split
      · exact ⟨ha, hr⟩
      · split
        · exact ⟨ha, hr⟩
        · refine ⟨by simp [m1, m3, ha], ?_⟩
          intro r hm
          simp only [m1, m2] at hm ⊢
          exact hr r (mem_spliceRemove hm)
  | reorderColumns f t =>
    rw [applyOp, dropReorderColumns]
    split
    · exact ⟨ha, hr⟩
    · rw [reorderColumns]
      refine ⟨?_, ?_⟩
      · simp only [m1, m3, length_jsMoveItem, ha]
      · intro r hm
        simp only [m1, m2, List.mem_map] at hm ⊢
        obtain ⟨r0, hr0, rfl⟩ := hm
        rw [length_jsMoveItem, length_jsMoveItem, hr r0 hr0]
  | reorderRows f t =>
    rw [applyOp, dropReorderRows]
    split
    · exact ⟨ha, hr⟩
    · rw [reorderRows]
      refine ⟨by simp [m1, m3, ha], ?_⟩
      intro r hm
      simp only [m1, m2] at hm ⊢
      exact hr r (mem_jsMoveItem hm)
  | sortRows =>
    rw [applyOp, sortRows]
    split
    · exact ⟨ha, hr⟩
    · split
      · exact ⟨ha, hr⟩
      · refine ⟨by simp [m1, m3, ha], ?_⟩
        intro r hm
        simp only [m1, m2, jsSortRows, List.mem_mergeSort] at hm ⊢
        exact hr r hm
  | duplicateRow i =>
    rw [applyOp, duplicateRow]
    split
    · exact ⟨ha, hr⟩
    · split
      · next hin =>
        refine ⟨by simp [m1, m3, ha], ?_⟩
        intro r hm
        simp only [m1, m2] at hm ⊢
        rcases mem_spliceInsert hm with hm' | hm'
        · subst hm'
          exact hr _ (by rw [← m2]; apply List.get_mem)
        · exact hr r hm'
      · exact hsv
  | insertRowAfter i =>
    rw [applyOp, insertRowAfter]
    split
    · exact ⟨ha, hr⟩
    · refine ⟨by simp [m1, m3, ha], ?_⟩
      intro r hm
      simp only [m1, m2] at hm ⊢
      rcases mem_spliceInsert hm with hm' | hm'
      · simp [hm', m1]
      · exact hr r hm'

/-- C3: after every sequence of the structural mutation operations applied to
a valid model, the alignment list stays parallel to the header list and every
row keeps exactly one cell per header. -/
theorem c3_invariant_preservation (ops : List TableOp) (s : TableState)
    (h : WF s) : WF (applyOps ops s) := by
  induction ops generalizing s with
  | nil => exact h
  | cons op ops ih =>
    rw [applyOps, List.foldl_cons]
    exact ih _ (wf_applyOp op s h)

/-- C3 (witness): the preservation theorem applied to a concrete valid state
and a concrete sequence exercising every operation kind. -/
theorem c3_invariant_preservation_witness :
    WF sWf ∧
    WF (applyOps
      [.sortRows, .addColumn, .addRow, .duplicateRow 0, .insertRowAfter 1,
       .reorderColumns 0 2, .reorderRows 2 0, .removeColumnAt 1, .removeRowAt 0,
       .removeRow, .removeColumn, .addRow] sWf) :=
  ⟨by decide,
   c3_invariant_preservation
     [.sortRows, .addColumn, .addRow, .duplicateRow 0, .insertRowAfter 1,
      .reorderColumns 0 2, .reorderRows 2 0, .removeColumnAt 1, .removeRowAt 0,
      .removeRow, .removeColumn, .addRow] sWf (by decide)⟩
/-- C5: whenever a mutation operation fails — removeColumn on a one-column
model, addRow with no columns, removeRow with zero rows, removeRowAt with an
out-of-bounds index, sortRows with fewer than two rows — it reports the
corresponding error and returns the state completely unchanged: the model is
untouched and no history entry is pushed. -/
theorem c5_failures_no_mutation (s : TableState) (hmode : s.isReorderMode = false) :
    (s.headers.length = 1 → removeColumn s = (s, some .cannotRemoveLastColumn)) ∧
    (s.headers = [] → addRow s = (s, some .noColumnsDefined)) ∧
    (s.rows = [] → removeRow s = (s, some .noRowsToRemove)) ∧
    (∀ i, s.rows.length ≤ i → removeRowAt i s = (s, some .invalidRowIndex)) ∧
    (s.rows.length ≤ 1 → sortRows s = (s, some .insufficientRows)) := by
  refine ⟨?_, ?_, ?_, ?_, ?_⟩
  · intro h1
    rw [removeColumn, if_neg (by rw [hmode]; exact Bool.false_ne_true),
      if_pos (by omega)]
  · intro h1
    rw [addRow, if_neg (by rw [hmode]; exact Bool.false_ne_true),
      if_pos (by simp [h1])]
  · intro h1
    rw [removeRow, if_neg (by rw [hmode]; exact Bool.false_ne_true),
      if_pos (by simp [h1])]
  · intro i hi
    rw [removeRowAt, if_neg (by rw [hmode]; exact Bool.false_ne_true),
      if_pos hi]
  · intro h1
    rw [sortRows, if_neg (by rw [hmode]; exact Bool.false_ne_true),
      if_pos h1]

/-- C5 (witness): the failure theorem applied at concrete states covering
each failing operation. -/
theorem c5_failures_no_mutation_witness :
    removeColumn sOneCol = (sOneCol, some .cannotRemoveLastColumn) ∧
    addRow sNoCols = (sNoCols, some .noColumnsDefined) ∧
    removeRow sOneCol = (sOneCol, some .noRowsToRemove) ∧
    removeRowAt 0 sOneCol = (sOneCol, some .invalidRowIndex) ∧
    sortRows sOneCol = (sOneCol, some .insufficientRows) :=
  ⟨(c5_failures_no_mutation sOneCol rfl).1 (by decide),
   (c5_failures_no_mutation sNoCols rfl).2.1 rfl,
   (c5_failures_no_mutation sOneCol rfl).2.2.1 rfl,
   (c5_failures_no_mutation sOneCol rfl).2.2.2.1 0 (by decide),
   (c5_failures_no_mutation sOneCol rfl).2.2.2.2 (by decide)⟩
theorem lexNat_eq_iff (a : List Nat) : ∀ b, lexNat a b = .eq ↔ a = b := by
  induction a with
  | nil => intro b; cases b <;> simp [lexNat]
  | cons x xs ih =>
    intro b
    cases b with
    | nil => simp [lexNat]
    | cons y ys =>
      rw [lexNat]
      by_cases h1 : x < y
      · have hne : x ≠ y := by omega
        simp [h1, hne]
      · by_cases h2 : y < x
        · have hne : x ≠ y := by omega
          simp [h1, h2, hne]
        · have heq : x = y := by omega
          subst heq
          simp [h1, h2, ih ys]

theorem lexNat_swap (a : List Nat) : ∀ b, lexNat b a = (lexNat a b).swap := by
  induction a with
  | nil => intro b; cases b <;> simp [lexNat, Ordering.swap]
  | cons x xs ih =>
    intro b
    cases b with
    | nil => simp [lexNat, Ordering.swap]
    | cons y ys =>
      rw [lexNat, lexNat]
      by_cases h1 : x < y
      · have h2 : ¬ y < x := by omega
        simp [h1, h2, Ordering.swap]
      · by_cases h2 : y < x
        · simp [h1, h2, Ordering.swap]
        · simp [h1, h2, ih ys]

theorem lexNat_trans_ne_gt (a : List Nat) :
    ∀ b c, lexNat a b ≠ .gt → lexNat b c ≠ .gt → lexNat a c ≠ .gt := by
  induction a with
  | nil => intro b c _ _; cases c <;> simp [lexNat]
  | cons x xs ih =>
    intro b c h1 h2
    cases b with
    | nil => rw [lexNat] at h1; exact absurd rfl h1
    | cons y ys =>
      cases c with
      | nil => rw [lexNat] at h2; exact absurd rfl h2
      | cons z zs =>
        rw [lexNat] at h1 h2 ⊢
        by_cases hxy : x < y
        · by_cases hyz : y < z
          · simp [show x < z by omega]
          · by_cases hzy : z < y
            · simp [hyz, hzy] at h2
            · simp [show x < z by omega]
        · by_cases hyx : y < x
          · simp [hxy, hyx] at h1
          · by_cases hyz : y < z
            · simp [show x < z by omega]
            · by_cases hzy : z < y
              · simp [hyz, hzy] at h2
              · have hxz : ¬ x < z := by omega
                have hzx : ¬ z < x := by omega
                simp only [hxy, hyx, if_false] at h1
                simp only [hyz, hzy, if_false] at h2
                simp only [hxz, hzx, if_false]
                exact ih ys zs h1 h2

theorem ordToInt_le_zero (o : Ordering) : ordToInt o ≤ 0 ↔ o ≠ .gt := by
  cases o <;> simp [ordToInt]

theorem rowCompare_eq_sig (a b : List Str) :
    rowCompare a b = ordToInt (lexNat (rowSig a) (rowSig b)) := by
  simp only [rowCompare, rowSig]
  generalize jsLowerStr (jsTrim (a.headD [])) = av
  generalize jsLowerStr (jsTrim (b.headD [])) = bv
  by_cases ha : av = [] <;> by_cases hb : bv = [] <;>
    simp [ha, hb, lexNat, ordToInt, localeCompareNat]

theorem rowLeB_total (a b : List Str) : (rowLeB a b || rowLeB b a) = true := by
  rw [rowLeB, rowLeB, rowCompare_eq_sig, rowCompare_eq_sig,
    lexNat_swap (rowSig a) (rowSig b)]
  cases hx : lexNat (rowSig a) (rowSig b) <;> simp [ordToInt, Ordering.swap]

theorem rowLeB_trans (a b c : List Str) (h1 : rowLeB a b = true)
    (h2 : rowLeB b c = true) : rowLeB a c = true := by
  simp only [rowLeB, rowCompare_eq_sig, decide_eq_true_eq, ordToInt_le_zero] at h1 h2 ⊢
  exact lexNat_trans_ne_gt _ _ _ h1 h2

theorem rowCompare_zero_iff (a b : List Str) :
    rowCompare a b = 0 ↔ rowSig a = rowSig b := by
  rw [rowCompare_eq_sig, ← lexNat_eq_iff]
  cases lexNat (rowSig a) (rowSig b) <;> simp [ordToInt]

theorem rowSig_one_iff (r : List Str) : rowSig r = [1] ↔ rowEmptyKey r = true := by
  simp only [rowSig, rowEmptyKey]
  generalize jsLowerStr (jsTrim (r.headD [])) = v
  by_cases h : v = [] <;> simp [h]

theorem rowSig_cases (r : List Str) : rowSig r = [1] ∨ ∃ k, rowSig r = 0 :: k := by
  rw [rowSig]
  split
  · exact Or.inl rfl
  · exact Or.inr ⟨_, rfl⟩

theorem rowLeB_empty_right {a b : List Str} (hle : rowLeB a b = true)
    (ha : rowEmptyKey a = true) : rowEmptyKey b = true := by
  simp only [rowLeB, rowCompare_eq_sig, decide_eq_true_eq, ordToInt_le_zero] at hle
  rw [← rowSig_one_iff] at ha ⊢
  rw [ha] at hle
  rcases rowSig_cases b with h | ⟨k, h⟩
  · exact h
  · rw [h, lexNat] at hle
    simp at hle
/-- C7 (amended): the claimed behaviour holds for the `dist/js/app.js` copy
of sortRows only — the copy in `src/unnamed/part_001` uses a plain untrimmed
localeCompare with no numeric option and no empties-last branches and is
refuted at scenario D's own inputs (see the counterexample) — and the
comparator model is asserted faithful for first-column keys over spaces,
ASCII digits and ASCII lowercase letters (after trimming and case-folding),
where ICU root collation is the space < numeric < letters order modelled by
`tokKey`; the hypothesis `hkeys` confines the statement to that alphabet.
Under it: on fewer than 2 rows sortRows fails with InsufficientRows and
changes nothing; on 2 or more rows it succeeds and replaces the rows with
their stable sort under the comparator (case-folded, trimmed first-column
value, numeric-aware comparison, empty values last): the result is the stable
merge sort of the rows, a permutation of them, sorted under the comparator;
rows with an empty first-column value come after all non-empty ones; and
every comparator equivalence class — in particular the empty-valued rows —
keeps its original relative order (stability). -/
theorem c7_sortRows_spec (s : TableState) (hmode : s.isReorderMode = false)
    (hkeys : ∀ r ∈ s.rows, ∀ c ∈ jsLowerStr (jsTrim (r.headD [])),
      c = ' ' ∨ isDigitCh c = true ∨ ('a' ≤ c ∧ c ≤ 'z')) :
    (s.rows.length ≤ 1 → sortRows s = (s, some .insufficientRows)) ∧
    (2 ≤ s.rows.length →
      (sortRows s).2 = none ∧
      (sortRows s).1.rows = jsSortRows s.rows ∧
      ((sortRows s).1.rows).Perm s.rows ∧
      ((sortRows s).1.rows).Pairwise (fun a b => rowLeB a b = true) ∧
      (∀ (i j : Nat) (hi : i < ((sortRows s).1.rows).length)
         (hj : j < ((sortRows s).1.rows).length), i < j →
         rowEmptyKey (((sortRows s).1.rows)[i]) = true →
         rowEmptyKey (((sortRows s).1.rows)[j]) = true) ∧
      (∀ r0 : List Str,
        ((sortRows s).1.rows).filter (fun x => rowCompare x r0 == 0) =
          s.rows.filter (fun x => rowCompare x r0 == 0))) := by
  constructor
  · intro h1
    rw [sortRows, if_neg (by rw [hmode]; exact Bool.false_ne_true), if_pos h1]
  · intro h2
    have hng : ¬ s.rows.length ≤ 1 := by omega
    have hrows : (sortRows s).1.rows = jsSortRows s.rows := by
      rw [sortRows, if_neg (by rw [hmode]; exact Bool.false_ne_true), if_neg hng]
      exact congrArg jsSortRows (saveToHistory_model s).2.1
    have hsnd : (sortRows s).2 = none := by
      rw [sortRows, if_neg (by rw [hmode]; exact Bool.false_ne_true), if_neg hng]
    have hperm : (jsSortRows s.rows).Perm s.rows := List.mergeSort_perm s.rows rowLeB
    have hsorted : (jsSortRows s.rows).Pairwise (fun a b => rowLeB a b = true) :=
      List.sorted_mergeSort rowLeB_trans rowLeB_total s.rows
    refine ⟨hsnd, hrows, ?_, ?_, ?_, ?_⟩
    · rw [hrows]; exact hperm
    · rw [hrows]; exact hsorted
    · intro i j hi hj hij hemp
      simp only [hrows] at hi hj hemp ⊢
      have hp := List.pairwise_iff_getElem.mp hsorted i j hi hj hij
      exact rowLeB_empty_right hp hemp
    · intro r0
      rw [hrows]
      have hcsub : List.Sublist (s.rows.filter (fun x => rowCompare x r0 == 0)) s.rows :=
        List.filter_sublist s.rows
      have hcpw : (s.rows.filter (fun x => rowCompare x r0 == 0)).Pairwise
          (fun a b => rowLeB a b = true) := by
        apply List.pairwise_of_forall_mem_list
        intro x hx y hy
        rw [List.mem_filter] at hx hy
        have hx0 : rowCompare x r0 = 0 := by simpa using hx.2
        have hy0 : rowCompare y r0 = 0 := by simpa using hy.2
        rw [rowCompare_zero_iff] at hx0 hy0
        simp only [rowLeB, rowCompare_eq_sig, decide_eq_true_eq, ordToInt_le_zero]
        rw [hx0, hy0, (lexNat_eq_iff (rowSig r0) (rowSig r0)).mpr rfl]
        simp
      have hsub2 : List.Sublist (s.rows.filter (fun x => rowCompare x r0 == 0)) (jsSortRows s.rows) :=
        List.sublist_mergeSort rowLeB_trans rowLeB_total hcpw hcsub
      have hself : (s.rows.filter (fun x => rowCompare x r0 == 0)).filter
          (fun x => rowCompare x r0 == 0) = s.rows.filter (fun x => rowCompare x r0 == 0) := by
        rw [List.filter_eq_self]
        intro aa haa
        exact (List.mem_filter.mp haa).2
      have hsubf : List.Sublist (s.rows.filter (fun x => rowCompare x r0 == 0))
          ((jsSortRows s.rows).filter (fun x => rowCompare x r0 == 0)) := by
        rw [← hself]
        exact hsub2.filter _
      have hlen : ((jsSortRows s.rows).filter (fun x => rowCompare x r0 == 0)).length =
          (s.rows.filter (fun x => rowCompare x r0 == 0)).length :=
        (hperm.filter _).length_eq
      exact (hsubf.eq_of_length hlen.symm).symm

/-- C7 (counterexample): at scenario D's own inputs — first-column values
"Item 10", "Item 2", "", "Item 1" — the sortRows copy in
`src/unnamed/part_001` succeeds but returns the rows with the empty value
FIRST and "Item 10" before "Item 2" (plain lexicographic: "item 1" < "item 10"
< "item 2" after case-folding), not scenario D's required order
["Item 1","Item 2","Item 10",""]; yet under the numeric comparison the claim
states, "item 2" precedes "item 10".  The claim as frozen, which cites both
copies, is therefore false for this copy. -/
theorem c7_counterexample :
    (sortRows_p1 sD).2 = none ∧
    (sortRows_p1 sD).1.rows =
      [[[]], [toStr "Item 1"], [toStr "Item 10"], [toStr "Item 2"]] ∧
    (sortRows_p1 sD).1.rows ≠
      [[toStr "Item 1"], [toStr "Item 2"], [toStr "Item 10"], [[]]] ∧
    rowEmptyKey ([[]] : List Str) = true ∧
    localeCompareNat (jsLowerStr (jsTrim (toStr "Item 2")))
      (jsLowerStr (jsTrim (toStr "Item 10"))) < 0 := by
  have h : (sortRows_p1 sD).1.rows = jsSortRows_p1 sD.rows := rfl
  have hr : (sortRows_p1 sD).1.rows =
      [[[]], [toStr "Item 1"], [toStr "Item 10"], [toStr "Item 2"]] := by
    rw [h]
    simp only [jsSortRows_p1, sD]
    simp [List.mergeSort, List.merge,
      (by decide : rowLeB_p1 [toStr "Item 10"] [toStr "Item 2"] = true),
      (by decide : rowLeB_p1 [[]] [toStr "Item 1"] = true),
      (by decide : rowLeB_p1 [toStr "Item 10"] [[]] = false),
      (by decide : rowLeB_p1 [toStr "Item 10"] [toStr "Item 1"] = false)]
  refine ⟨rfl, hr, ?_, by decide, by decide⟩
  rw [hr]
  decide

/-- C7 (witness): the sortRows theorem applied at scenario D — whose keys lie
in the modelled alphabet of spaces, digits and lowercase letters — together
with the concrete sorted result ["Item 1","Item 2","Item 10",""] showing the
numeric-aware, empties-last order of the dist copy. -/
theorem c7_sortRows_spec_witness :
    ((∀ r ∈ sD.rows, ∀ c ∈ jsLowerStr (jsTrim (r.headD [])),
        c = ' ' ∨ isDigitCh c = true ∨ ('a' ≤ c ∧ c ≤ 'z')) ∧
      2 ≤ sD.rows.length ∧ (sortRows sD).2 = none ∧
      ((sortRows sD).1.rows).Perm sD.rows) ∧
    (sortRows sD).1.rows =
      [[toStr "Item 1"], [toStr "Item 2"], [toStr "Item 10"], [[]]] :=
  ⟨⟨by decide, by decide,
    ((c7_sortRows_spec sD rfl (by decide)).2 (by decide)).1,
    ((c7_sortRows_spec sD rfl (by decide)).2 (by decide)).2.2.1⟩, by
    have h : (sortRows sD).1.rows = jsSortRows sD.rows := rfl
    rw [h]
    simp only [jsSortRows, sD]
    simp [List.mergeSort, List.merge,
      (by decide : rowLeB [toStr "Item 10"] [toStr "Item 2"] = false),
      (by decide : rowLeB [[]] [toStr "Item 1"] = false),
      (by decide : rowLeB [toStr "Item 2"] [toStr "Item 1"] = false),
      (by decide : rowLeB [toStr "Item 2"] [[]] = true),
      (by decide : rowLeB [toStr "Item 10"] [[]] = true)]⟩
theorem str_beq_false {a b : Str} (h : ¬ a = b) : (a == b) = false :=
  beq_eq_false_iff_ne.mpr h

theorem lookup_jsObjInsert {β} (k k' : Str) (v : β) (l : List (Str × β)) :
    List.lookup k (jsObjInsert k' v l) =
      if k = k' then some v else List.lookup k l := by
  induction l with
  | nil =>
    by_cases h : k = k'
    · simp [jsObjInsert, h]
    · simp [jsObjInsert, List.lookup_cons, str_beq_false h, str_beq_false (Ne.symm h), h]
  | cons p rest ih =>
    obtain ⟨pk, pv⟩ := p
    rw [jsObjInsert]
    by_cases h1 : pk = k'
    · subst h1
      by_cases h : k = pk
      · simp [h]
      · simp [List.lookup_cons, str_beq_false h, str_beq_false (Ne.symm h), h]
    · rw [if_neg h1]
      by_cases h2 : k = pk
      · subst h2
        simp [h1]
      · simp [List.lookup_cons, str_beq_false h2, str_beq_false (Ne.symm h2), ih]

theorem lookup_foldl_optInsert {β γ} (W : γ → Option (Str × β)) (xs : List γ) :
    ∀ (acc : List (Str × β)) (k : Str),
    List.lookup k (xs.foldl (optInsertStep W) acc) =
      (match ((xs.filterMap W).filter (fun kv => kv.1 == k)).getLast? with
       | some kv => some kv.2
       | none => List.lookup k acc) := by
  induction xs with
  | nil => intro acc k; simp
  | cons x xs ih =>
    intro acc k
    rw [List.foldl_cons, List.filterMap_cons]
    cases hW : W x with
    | none =>
      simp only [optInsertStep, hW]
      exact ih acc k
    | some kv =>
      simp only [optInsertStep, hW]
      rw [ih]
      rw [List.filter_cons]
      by_cases hk : kv.1 = k
      · rw [if_pos (by simp [hk])]
        cases hrest : ((xs.filterMap W).filter (fun kv => kv.1 == k)) with
        | nil => simp [lookup_jsObjInsert, hk.symm]
        | cons q qs =>
          rw [List.getLast?_cons_cons]
          cases hq : (q :: qs).getLast? with
          | none => simp at hq
          | some r => rfl
      · rw [if_neg (by simp [hk])]
        cases hrest : ((xs.filterMap W).filter (fun kv => kv.1 == k)).getLast? with
        | some kv' => rfl
        | none =>
          simp only [lookup_jsObjInsert]
          rw [if_neg (fun h => hk (Eq.symm h))]

theorem jsonFormatter_eq_optInsert (m : TableModel) :
    jsonFormatter m = m.rows.foldl (optInsertStep (jsonRowEntry m.headers)) [] := by
  rw [jsonFormatter]
  congr 1
  funext acc row
  simp only [optInsertStep, jsonRowEntry]
  cases row.head? with
  | none => rfl
  | some c0 =>
    by_cases h : stripStars c0 = [] <;> simp [h]
theorem foldl_congr_mem {α β} (f g : β → α → β) :
    ∀ (l : List α) (b : β), (∀ a ∈ l, ∀ x, f x a = g x a) →
    l.foldl f b = l.foldl g b := by
  intro l
  induction l with
  | nil => intro b _; rfl
  | cons a l ih =>
    intro b h
    rw [List.foldl_cons, List.foldl_cons, h a (List.mem_cons_self a l) b]
    exact ih _ (fun a' ha' x => h a' (List.mem_cons_of_mem _ ha') x)

theorem range'_map_pair (headers row : List Str) (hlen : row.length = headers.length) :
    (List.range' 1 (headers.length - 1)).map
      (fun i => (headers.getD i [], row.getD i [])) =
      (headers.drop 1).zip (row.drop 1) := by
  apply List.ext_getElem
  · simp [hlen]
  · intro t h1 h2
    simp only [List.getElem_map, List.getElem_range', List.getElem_zip,
      List.getElem_drop]
    simp only [List.length_map, List.length_range'] at h1
    simp only [Nat.one_mul]
    rw [List.getD_eq_getElem headers [] (by omega), List.getD_eq_getElem row [] (by omega)]

theorem jsonRowObject_eq_zip (headers row : List Str)
    (hlen : row.length = headers.length) :
    jsonRowObject headers row =
      ((headers.drop 1).zip (row.drop 1)).foldl
        (fun a p => jsObjInsert (stripStars p.1) (jsonCellValue p.2) a) [] := by
  rw [jsonRowObject, ← range'_map_pair headers row hlen, List.foldl_map]
  apply foldl_congr_mem
  intro i hi acc
  have hm := List.mem_range'_1.mp hi
  have hiR : i < row.length := by omega
  rw [List.getElem?_eq_getElem hiR]
  rw [List.getD_eq_getElem row [] hiR]
theorem filterMap_jsonRowEntry_filter (hs : List Str) (k : Str) (hk : k ≠ []) :
    ∀ rows : List (List Str),
    (rows.filterMap (jsonRowEntry hs)).filter (fun kv => kv.1 == k) =
      (rows.filter (fun r => stripStars (r.headD []) == k)).map
        (fun r => (stripStars (r.headD []), jsonRowObject hs r)) := by
  intro rows
  induction rows with
  | nil => rfl
  | cons r rows ih =>
    rw [List.filterMap_cons, List.filter_cons]
    cases hh : r.head? with
    | none =>
      have hr : r = [] := by cases r <;> simp_all
      subst hr
      simp only [jsonRowEntry, List.head?_nil]
      rw [if_neg (by simp [stripStars, hk, Ne.symm hk])]
      exact ih
    | some c0 =>
      have hr : r.head?.getD [] = c0 := by simp [hh]
      have hrD : r.headD [] = c0 := by cases r <;> simp_all
      simp only [jsonRowEntry, hh]
      by_cases hstrip : stripStars c0 = []
      · rw [if_pos hstrip]
        rw [if_neg (by simp [hr, hrD, hstrip, hk, Ne.symm hk])]
        exact ih
      · rw [if_neg hstrip]
        rw [List.filter_cons]
        by_cases hkey : stripStars c0 = k
        · rw [if_pos (by simp [hkey]), if_pos (by simp [hr, hrD, hkey]), List.map_cons, hrD, ih]
        · rw [if_neg (by simp [hkey]), if_neg (by simp [hr, hrD, hkey]), ih]

/-- C9 (amended): for a valid model the JSON formatter yields the object with
one property per row whose first cell is non-empty AFTER removing every `**`
(an empty-string test, not a trim test); the key is the `**`-stripped first
cell; on key collisions the last such row wins; the empty string is never a
key; and each row's object maps every header after the first, `**`-stripped,
to the row's Value-Normalizer-classified cell (last assignment winning on
duplicate stripped headers, per JS object assignment). -/
theorem c9_json_formatter (m : TableModel)
    (hrows : ∀ r ∈ m.rows, r.length = m.headers.length) :
    (∀ k : Str, k ≠ [] →
      List.lookup k (jsonFormatter m) =
        ((m.rows.filter (fun r => stripStars (r.headD []) == k)).getLast?).map
          (jsonRowObject m.headers)) ∧
    List.lookup [] (jsonFormatter m) = none ∧
    (∀ r ∈ m.rows, jsonRowObject m.headers r =
      ((m.headers.drop 1).zip (r.drop 1)).foldl
        (fun a p => jsObjInsert (stripStars p.1) (jsonCellValue p.2) a) []) := by
  refine ⟨?_, ?_, ?_⟩
  · intro k hk
    rw [jsonFormatter_eq_optInsert, lookup_foldl_optInsert (jsonRowEntry m.headers) m.rows,
      filterMap_jsonRowEntry_filter m.headers k hk, List.getLast?_map]
    cases (m.rows.filter (fun r => stripStars (r.headD []) == k)).getLast? with
    | none => rfl
    | some r => rfl
  · rw [jsonFormatter_eq_optInsert, lookup_foldl_optInsert (jsonRowEntry m.headers) m.rows]
    have hnil : ((m.rows.filterMap (jsonRowEntry m.headers)).filter
        (fun kv => kv.1 == [])) = [] := by
      rw [List.filter_eq_nil_iff]
      intro kv hkv
      rw [List.mem_filterMap] at hkv
      obtain ⟨r, _, hr⟩ := hkv
      rw [jsonRowEntry] at hr
      cases hh : r.head? with
      | none =>
        simp only [hh] at hr
        cases hr
      | some c0 =>
        simp only [hh] at hr
        by_cases hstrip : stripStars c0 = []
        · rw [if_pos hstrip] at hr
          exact absurd hr (by simp)
        · rw [if_neg hstrip] at hr
          cases Option.some.inj hr
          simp [hstrip]
    rw [hnil]
    rfl
  · intro r hr
    exact jsonRowObject_eq_zip m.headers r (hrows r hr)
/-- C9 (counterexample): on `mStars` the claim prescribes exactly one entry,
keyed by the verbatim first-column value "**T**" (the whitespace row being
skipped as empty-after-trimming) and mapping the verbatim header "Done"; the
code instead keeps the whitespace row under the key " " and stores the second
row under the stripped key "T", so the claimed object is not produced: the
whitespace key is present, the verbatim key is absent, and the whole object
differs from the claimed one. -/
theorem c9_counterexample :
    List.lookup (toStr " ") (jsonFormatter mStars) =
      some [(toStr "Done", toStr "✅")] ∧
    List.lookup (toStr "**T**") (jsonFormatter mStars) = none ∧
    jsonFormatter mStars ≠ [(toStr "**T**", [(toStr "Done", toStr "❌")])] := by
  refine ⟨by decide, by decide, by decide⟩

/-- C9 (witness): the amended theorem applied at scenario C, plus the concrete
object {"Task1":{"Done":"✅"},"Task2":{"Done":"❌"}} the formatter produces. -/
theorem c9_json_formatter_witness :
    (∀ r ∈ mTasks.rows, r.length = mTasks.headers.length) ∧
    List.lookup (toStr "Task1") (jsonFormatter mTasks) =
      ((mTasks.rows.filter
        (fun r => stripStars (r.headD []) == toStr "Task1")).getLast?).map
        (jsonRowObject mTasks.headers) ∧
    jsonFormatter mTasks =
      [(toStr "Task1", [(toStr "Done", toStr "✅")]),
       (toStr "Task2", [(toStr "Done", toStr "❌")])] :=
  ⟨by decide,
   (c9_json_formatter mTasks (by decide)).1 (toStr "Task1") (by decide),
   by decide⟩
theorem splitOnChar_cons_sep (sep : Char) (l : Str) :
    splitOnChar sep (sep :: l) = [] :: splitOnChar sep l := by
  simp [splitOnChar]

theorem splitOnChar_no_sep {sep : Char} : ∀ {xs : Str}, sep ∉ xs →
    splitOnChar sep xs = [xs]
  | [], _ => rfl
  | c :: cs, h => by
    rw [splitOnChar]
    rw [if_neg (by intro hc; exact h (hc ▸ List.mem_cons_self c cs))]
    rw [splitOnChar_no_sep (fun hm => h (List.mem_cons_of_mem c hm))]

theorem splitOnChar_append_sep {sep : Char} : ∀ {xs : Str} (ys : Str), sep ∉ xs →
    splitOnChar sep (xs ++ sep :: ys) = xs :: splitOnChar sep ys
  | [], ys, _ => by simp [splitOnChar]
  | c :: cs, ys, h => by
    rw [List.cons_append, splitOnChar]
    rw [if_neg (by intro hc; exact h (hc ▸ List.mem_cons_self c cs))]
    rw [splitOnChar_append_sep ys (fun hm => h (List.mem_cons_of_mem c hm))]

theorem mem_splitOnChar_not_sep {sep : Char} :
    ∀ {l : Str} {s : Str}, s ∈ splitOnChar sep l → sep ∉ s := by
  intro l
  induction l with
  | nil =>
    intro s hs
    simp [splitOnChar] at hs
    simp [hs]
  | cons c cs ih =>
    intro s hs
    rw [splitOnChar] at hs
    by_cases hc : c = sep
    · rw [if_pos hc] at hs
      rcases List.mem_cons.mp hs with h | h
      · simp [h]
      · exact ih h
    · rw [if_neg hc] at hs
      cases hsplit : splitOnChar sep cs with
      | nil =>
        rw [hsplit] at hs
        simp at hs
        simp [hs]
        exact fun hh => hc hh.symm
      | cons t ts =>
        rw [hsplit] at hs
        rcases List.mem_cons.mp hs with h | h
        · subst h
          intro hmem
          rcases List.mem_cons.mp hmem with h' | h'
          · exact hc h'.symm
          · exact ih (hsplit ▸ List.mem_cons_self t ts) h'
        · exact ih (hsplit ▸ List.mem_cons_of_mem t h)

theorem dropWhile_eq_self_of_head {p : Char → Bool} {s : Str}
    (h : ∀ x ∈ s.head?, p x = false) : s.dropWhile p = s := by
  cases s with
  | nil => rfl
  | cons c cs =>
    rw [List.dropWhile_cons, if_neg]
    simp at h
    simp [h]

theorem jsTrim_eq_self {s : Str} (h : GoodEnds s) : jsTrim s = s := by
  obtain ⟨h1, h2⟩ := h
  rw [jsTrim, dropWhile_eq_self_of_head h1, dropWhile_eq_self_of_head, List.reverse_reverse]
  intro x hx
  rw [List.head?_reverse] at hx
  exact h2 x hx

theorem mem_dropWhile_subset {p : Char → Bool} {s : Str} {x : Char}
    (h : x ∈ s.dropWhile p) : x ∈ s := by
  induction s with
  | nil => exact absurd h (List.not_mem_nil x)
  | cons c cs ih =>
    rw [List.dropWhile_cons] at h
    split at h
    · exact List.mem_cons_of_mem c (ih h)
    · exact h

theorem mem_jsTrim {s : Str} {x : Char} (h : x ∈ jsTrim s) : x ∈ s := by
  rw [jsTrim] at h
  rw [List.mem_reverse] at h
  have h1 := mem_dropWhile_subset h
  rw [List.mem_reverse] at h1
  exact mem_dropWhile_subset h1

theorem head?_dropWhile_false {p : Char → Bool} (s : Str) :
    ∀ x ∈ (s.dropWhile p).head?, p x = false := by
  induction s with
  | nil => simp
  | cons c cs ih =>
    rw [List.dropWhile_cons]
    split
    · exact ih
    · next hc =>
      intro x hx
      simp at hx
      subst hx
      simpa using hc

theorem getLast?_dropWhile_of_ne_nil {p : Char → Bool} :
    ∀ {l : Str}, l.dropWhile p ≠ [] →
    (l.dropWhile p).getLast? = l.getLast? := by
  intro l
  induction l with
  | nil => intro h; simp at h
  | cons c cs ih =>
    intro h
    by_cases hp : p c = true
    · rw [List.dropWhile_cons, if_pos hp] at h ⊢
      have hcs : cs ≠ [] := by
        intro hnil
        rw [hnil] at h
        simp at h
      rw [ih h]
      cases cs with
      | nil => exact absurd rfl hcs
      | cons d ds => rw [List.getLast?_cons_cons]
    · rw [List.dropWhile_cons, if_neg hp]

theorem goodEnds_jsTrim (s : Str) : GoodEnds (jsTrim s) := by
  constructor
  · intro x hx
    rw [jsTrim, List.head?_reverse] at hx
    by_cases hnil : ((s.dropWhile jsIsWs).reverse).dropWhile jsIsWs = []
    · rw [hnil] at hx
      simp at hx
    · rw [getLast?_dropWhile_of_ne_nil hnil, List.getLast?_reverse] at hx
      exact head?_dropWhile_false s x hx
  · intro x hx
    rw [jsTrim, List.getLast?_reverse] at hx
    exact head?_dropWhile_false _ x hx

theorem jsTrim_pad {c : Str} (h : GoodEnds c) :
    jsTrim (' ' :: (c ++ [' '])) = c := by
  cases c with
  | nil => decide
  | cons h0 t =>
    obtain ⟨h1, h2⟩ := h
    have hh0 : jsIsWs h0 = false := h1 h0 rfl
    have hlast : ∀ x ∈ (h0 :: t).getLast?, jsIsWs x = false := h2
    rw [jsTrim]
    rw [List.dropWhile_cons, if_pos (by decide)]
    rw [List.cons_append, List.dropWhile_cons, if_neg (by simp [hh0])]
    have hrev : (h0 :: (t ++ [' '])).reverse = ' ' :: (h0 :: t).reverse := by
      simp
    rw [hrev]
    rw [List.dropWhile_cons, if_pos (by decide)]
    rw [dropWhile_eq_self_of_head (by
      intro x hx
      rw [List.head?_reverse] at hx
      exact hlast x hx)]
    rw [List.reverse_reverse]
theorem escapeHtml_eq_self {s : Str} (h : NoEsc s) : escapeHtml s = s := by
  induction s with
  | nil => rfl
  | cons c cs ih =>
    have hc := h c (List.mem_cons_self c cs)
    have ht := ih (fun x hx => h x (List.mem_cons_of_mem c hx))
    rw [escapeHtml, List.map_cons, List.flatten_cons, hc]
    rw [escapeHtml] at ht
    rw [ht, List.singleton_append]

theorem mem_escChar {c x : Char} (h : x ∈ escChar c) : x = c ∨ x ∈ entityChars := by
  rw [escChar] at h
  split at h
  · exact Or.inr ((by decide : ∀ y ∈ toStr "&amp;", y ∈ entityChars) x h)
  · split at h
    · exact Or.inr ((by decide : ∀ y ∈ toStr "&lt;", y ∈ entityChars) x h)
    · split at h
      · exact Or.inr ((by decide : ∀ y ∈ toStr "&gt;", y ∈ entityChars) x h)
      · split at h
        · exact Or.inr ((by decide : ∀ y ∈ toStr "&quot;", y ∈ entityChars) x h)
        · split at h
          · exact Or.inr ((by decide : ∀ y ∈ toStr "&#39;", y ∈ entityChars) x h)
          · exact Or.inl (by simpa using h)

theorem mem_escapeHtml {s : Str} {x : Char} (h : x ∈ escapeHtml s) :
    x ∈ s ∨ x ∈ entityChars := by
  rw [escapeHtml, List.mem_flatten] at h
  obtain ⟨l, hl, hx⟩ := h
  rw [List.mem_map] at hl
  obtain ⟨c, hc, rfl⟩ := hl
  rcases mem_escChar hx with h | h
  · exact Or.inl (h ▸ hc)
  · exact Or.inr h

theorem escChar_head (c : Char) :
    (escChar c).head? = some c ∨ (escChar c).head? = some '&' := by
  rw [escChar]
  split
  · exact Or.inr rfl
  · split
    · exact Or.inr rfl
    · split
      · exact Or.inr rfl
      · split
        · exact Or.inr rfl
        · split
          · exact Or.inr rfl
          · exact Or.inl rfl

theorem escChar_getLast (c : Char) :
    (escChar c).getLast? = some c ∨ (escChar c).getLast? = some ';' := by
  rw [escChar]
  split
  · exact Or.inr rfl
  · split
    · exact Or.inr rfl
    · split
      · exact Or.inr rfl
      · split
        · exact Or.inr rfl
        · split
          · exact Or.inr rfl
          · exact Or.inl rfl

theorem escChar_ne_nil (c : Char) : escChar c ≠ [] := by
  rw [escChar]
  split
  · decide
  · split
    · decide
    · split
      · decide
      · split
        · decide
        · split
          · decide
          · simp

theorem escapeHtml_append (a b : Str) :
    escapeHtml (a ++ b) = escapeHtml a ++ escapeHtml b := by
  simp [escapeHtml]

theorem goodEnds_escapeHtml {s : Str} (h : GoodEnds s) : GoodEnds (escapeHtml s) := by
  obtain ⟨h1, h2⟩ := h
  constructor
  · intro x hx
    cases s with
    | nil => simp [escapeHtml] at hx
    | cons c cs =>
      have he : escapeHtml (c :: cs) = escChar c ++ escapeHtml cs := by
        rw [escapeHtml, List.map_cons, List.flatten_cons]
        rfl
      rw [he, List.head?_append] at hx
      have hcn : jsIsWs c = false := h1 c rfl
      rcases escChar_head c with hh | hh
      · rw [hh] at hx
        simp at hx
        subst hx
        exact hcn
      · rw [hh] at hx
        simp at hx
        subst hx
        decide
  · intro x hx
    rcases List.eq_nil_or_concat s with rfl | ⟨ys, a, rfl⟩
    · simp [escapeHtml] at hx
    · rw [List.concat_eq_append] at hx h2
      rw [escapeHtml_append] at hx
      rw [List.getLast?_append] at hx
      have han : jsIsWs a = false := by
        have := h2 a
        simp [List.getLast?_concat] at this
        exact this
      have hes : escapeHtml [a] = escChar a := by
        rw [escapeHtml, List.map_cons, List.map_nil, List.flatten_cons]
        simp
      rw [hes] at hx
      rcases escChar_getLast a with hh | hh
      · rw [hh] at hx
        simp at hx
        subst hx
        exact han
      · rw [hh] at hx
        simp at hx
        subst hx
        decide

theorem normalize_cases (c : Str) :
    normalizeCheckValue c = toStr "✅" ∨ normalizeCheckValue c = toStr "❌" ∨
    normalizeCheckValue c = c := by
  rw [normalizeCheckValue]
  split
  · exact Or.inl rfl
  · split
    · exact Or.inr (Or.inl rfl)
    · exact Or.inr (Or.inr rfl)

theorem normalize_idem (c : Str) :
    normalizeCheckValue (normalizeCheckValue c) = normalizeCheckValue c := by
  rcases normalize_cases c with h | h | h
  · rw [h]; decide
  · rw [h]; decide
  · rw [h]; exact h
theorem pipe_not_mem_padCell {c : Str} (hp : '|' ∉ c) : '|' ∉ padCell c := by
  intro hm
  rcases List.mem_cons.mp hm with h' | h'
  · exact absurd h'.symm (by decide)
  · rcases List.mem_append.mp h' with h'' | h''
    · exact hp h''
    · simp at h''

theorem joinSep_split_cells :
    ∀ (cells : List Str), cells ≠ [] → (∀ c ∈ cells, '|' ∉ c) →
    splitOnChar '|' (' ' :: joinSep (toStr " | ") cells ++ [' ', '|']) =
      cells.map padCell ++ [[]]
  | [], h, _ => absurd rfl h
  | [c], _, hp => by
    have hnp : '|' ∉ padCell c := pipe_not_mem_padCell (hp c (by simp))
    have heq : ' ' :: joinSep (toStr " | ") [c] ++ [' ', '|'] = padCell c ++ '|' :: [] := by
      rw [joinSep]
      have hsep : ([' ', '|'] : Str) = ' ' :: '|' :: [] := rfl
      simp [padCell, List.append_assoc]
    rw [heq, splitOnChar_append_sep [] hnp]
    rfl
  | c :: c2 :: cs, _, hp => by
    have hnp : '|' ∉ padCell c := pipe_not_mem_padCell (hp c (by simp))
    have hjoin : joinSep (toStr " | ") (c :: c2 :: cs) =
        c ++ toStr " | " ++ joinSep (toStr " | ") (c2 :: cs) := rfl
    have heq : ' ' :: joinSep (toStr " | ") (c :: c2 :: cs) ++ [' ', '|'] =
        padCell c ++ '|' :: (' ' :: joinSep (toStr " | ") (c2 :: cs) ++ [' ', '|']) := by
      rw [hjoin]
      have hsep : toStr " | " = ' ' :: '|' :: ' ' :: [] := rfl
      rw [hsep]
      simp [padCell, List.append_assoc]
    rw [heq, splitOnChar_append_sep _ hnp]
    rw [joinSep_split_cells (c2 :: cs) (by simp) (fun d hd => hp d (List.mem_cons_of_mem c hd))]
    rfl

theorem splitOnChar_mdLine (cells : List Str) (hne : cells ≠ [])
    (hp : ∀ c ∈ cells, '|' ∉ c) :
    splitOnChar '|' (mdLine cells) = [] :: (cells.map padCell ++ [[]]) := by
  have heq : mdLine cells = '|' :: (' ' :: joinSep (toStr " | ") cells ++ [' ', '|']) := by
    rw [mdLine]
    have h1 : toStr "| " = '|' :: ' ' :: [] := rfl
    have h2 : toStr " |" = ' ' :: '|' :: [] := rfl
    rw [h1, h2]
    simp [List.append_assoc]
  rw [heq, splitOnChar_cons_sep, joinSep_split_cells cells hne hp]

theorem parseRow_mdLine (cells : List Str) (hne : cells ≠ [])
    (hp : ∀ c ∈ cells, '|' ∉ c) (hg : ∀ c ∈ cells, GoodEnds c) :
    parseRow (mdLine cells) = cells := by
  rw [parseRow]
  simp only [splitOnChar_mdLine cells hne hp]
  rw [show dropEdgeHead ([] :: (cells.map padCell ++ [[]])) =
    cells.map padCell ++ [[]] from rfl]
  rw [dropEdgeLast, List.getLast?_concat]
  simp only [show (jsTrim ([] : Str)).isEmpty = true from rfl, if_true]
  rw [List.dropLast_concat]
  rw [List.map_map]
  have hmap : List.map (jsTrim ∘ padCell) cells = List.map id cells :=
    List.map_congr_left (fun c hc => by
      simp only [Function.comp_apply, padCell, id]
      exact jsTrim_pad (hg c hc))
  rw [hmap, List.map_id]

theorem joinSep_lines_split {sep : Char} :
    ∀ (ls : List Str), ls ≠ [] → (∀ l ∈ ls, sep ∉ l) →
    splitOnChar sep (joinSep [sep] ls) = ls
  | [], h, _ => absurd rfl h
  | [l], _, hf => by
    rw [joinSep, splitOnChar_no_sep (hf l (by simp))]
  | l :: l2 :: ls, _, hf => by
    have hjoin : joinSep [sep] (l :: l2 :: ls) =
        l ++ [sep] ++ joinSep [sep] (l2 :: ls) := rfl
    rw [hjoin]
    have heq : l ++ [sep] ++ joinSep [sep] (l2 :: ls) =
        l ++ sep :: joinSep [sep] (l2 :: ls) := by
      simp
    rw [heq, splitOnChar_append_sep _ (hf l (by simp))]
    rw [joinSep_lines_split (l2 :: ls) (by simp) (fun d hd => hf d (List.mem_cons_of_mem l hd))]

theorem serializeMarkdown_eq_join (m : TableModel) :
    serializeMarkdown m = joinSep (toStr "\n")
      (mdLine m.headers :: mdLine (m.alignments.map alignMarkdown) ::
        m.rows.map (fun row => mdLine (row.map normalizeCheckValue))) := by
  rw [serializeMarkdown]
  cases hr : m.rows with
  | nil =>
    simp only [List.isEmpty_nil, if_true, List.map_nil]
    have h1 : joinSep (toStr "\n")
        [mdLine m.headers, mdLine (m.alignments.map alignMarkdown)] =
        mdLine m.headers ++ toStr "\n" ++ mdLine (m.alignments.map alignMarkdown) := rfl
    rw [h1]
  | cons r rs =>
    simp only [List.isEmpty_cons, if_false, List.map_cons]
    have h1 : joinSep (toStr "\n") (mdLine m.headers ::
        mdLine (m.alignments.map alignMarkdown) ::
        mdLine (r.map normalizeCheckValue) ::
        rs.map (fun row => mdLine (row.map normalizeCheckValue))) =
        mdLine m.headers ++ toStr "\n" ++
          (mdLine (m.alignments.map alignMarkdown) ++ toStr "\n" ++
            joinSep (toStr "\n") (mdLine (r.map normalizeCheckValue) ::
              rs.map (fun row => mdLine (row.map normalizeCheckValue)))) := rfl
    rw [h1]
    simp [List.append_assoc]
theorem dropEdgeHead_subset (parts : List Str) : ∀ x ∈ dropEdgeHead parts, x ∈ parts := by
  cases parts with
  | nil => simp [dropEdgeHead]
  | cons p rest =>
    intro x hx
    rw [dropEdgeHead] at hx
    split at hx
    · exact List.mem_cons_of_mem p hx
    · exact hx

theorem dropEdgeLast_subset (l : List Str) : ∀ x ∈ dropEdgeLast l, x ∈ l := by
  intro x hx
  rw [dropEdgeLast] at hx
  cases hl : l.getLast? with
  | none => simp only [hl] at hx; exact hx
  | some q =>
    simp only [hl] at hx
    by_cases hq : (jsTrim q).isEmpty = true
    · rw [if_pos hq] at hx
      exact List.dropLast_subset l hx
    · rw [if_neg hq] at hx
      exact hx

theorem parseRow_cells {line : Str} {c : Str} (h : c ∈ parseRow line) :
    ∃ p ∈ splitOnChar '|' line, c = jsTrim p := by
  rw [parseRow] at h
  rw [List.mem_map] at h
  obtain ⟨p, hp, rfl⟩ := h
  exact ⟨p, dropEdgeHead_subset _ _ (dropEdgeLast_subset _ _ hp), rfl⟩

theorem mem_of_mem_splitOnChar {sep : Char} :
    ∀ {l p : Str}, p ∈ splitOnChar sep l → ∀ {x}, x ∈ p → x ∈ l := by
  intro l
  induction l with
  | nil =>
    intro p hp x hx
    simp [splitOnChar] at hp
    subst hp
    simp at hx
  | cons c cs ih =>
    intro p hp x hx
    rw [splitOnChar] at hp
    by_cases hc : c = sep
    · rw [if_pos hc] at hp
      rcases List.mem_cons.mp hp with h | h
      · subst h; simp at hx
      · exact List.mem_cons_of_mem c (ih h hx)
    · rw [if_neg hc] at hp
      cases hsplit : splitOnChar sep cs with
      | nil =>
        rw [hsplit] at hp
        simp at hp
        subst hp
        rcases List.mem_cons.mp hx with h | h
        · simp [h]
        · simp at h
      | cons t ts =>
        rw [hsplit] at hp
        rcases List.mem_cons.mp hp with h | h
        · subst h
          rcases List.mem_cons.mp hx with h' | h'
          · simp [h']
          · exact List.mem_cons_of_mem c (ih (hsplit ▸ List.mem_cons_self t ts) h')
        · exact List.mem_cons_of_mem c (ih (hsplit ▸ List.mem_cons_of_mem t h) hx)

theorem goodCell_nil : GoodCell [] := by
  refine ⟨⟨?_, ?_⟩, ?_, ?_⟩ <;> simp

theorem goodCell_parseRow {line : Str} (hnl : '\n' ∉ line) :
    ∀ c ∈ parseRow line, GoodCell c := by
  intro c hc
  obtain ⟨p, hp, rfl⟩ := parseRow_cells hc
  refine ⟨goodEnds_jsTrim p, ?_, ?_⟩
  · intro hm
    exact mem_splitOnChar_not_sep hp (mem_jsTrim hm)
  · intro hm
    exact hnl (mem_of_mem_splitOnChar hp (mem_jsTrim hm))

theorem goodCell_escapeHtml {c : Str} (h : GoodCell c) : GoodCell (escapeHtml c) := by
  obtain ⟨h1, h2, h3⟩ := h
  refine ⟨goodEnds_escapeHtml h1, ?_, ?_⟩
  · intro hm
    rcases mem_escapeHtml hm with h' | h'
    · exact h2 h'
    · exact absurd h' (by decide)
  · intro hm
    rcases mem_escapeHtml hm with h' | h'
    · exact h3 h'
    · exact absurd h' (by decide)

theorem goodCell_normalize {c : Str} (h : GoodCell c) :
    GoodCell (normalizeCheckValue c) := by
  rcases normalize_cases c with hn | hn | hn <;> rw [hn]
  · exact ⟨⟨by decide, by decide⟩, by decide, by decide⟩
  · exact ⟨⟨by decide, by decide⟩, by decide, by decide⟩
  · exact h

theorem padTruncate_length (n : Nat) (row : List Str) :
    (padTruncate n row).length = n := by
  rw [padTruncate, List.length_take, List.length_append, List.length_replicate]
  omega

theorem padTruncate_id {n : Nat} {row : List Str} (h : row.length = n) :
    padTruncate n row = row := by
  rw [padTruncate, h, Nat.sub_self, List.replicate_zero, List.append_nil]
  exact List.take_of_length_le (by omega)

theorem mem_padTruncate {n : Nat} {row : List Str} {c : Str}
    (h : c ∈ padTruncate n row) : c ∈ row ∨ c = [] := by
  rw [padTruncate] at h
  have h' := List.take_subset _ _ h
  rcases List.mem_append.mp h' with h'' | h''
  · exact Or.inl h''
  · exact Or.inr (List.eq_of_mem_replicate h'')

theorem parseMarkdown_wf {input : Str} {m : TableModel}
    (hp : parseMarkdown input = .ok m) :
    m.alignments.length = m.headers.length ∧
    (∀ r ∈ m.rows, r.length = m.headers.length) ∧
    (∀ h ∈ m.headers, GoodCell h) ∧
    (∀ r ∈ m.rows, ∀ c ∈ r, GoodCell c) := by
  rw [parseMarkdown] at hp
  by_cases h2 : ((splitOnChar '\n' (jsTrim input)).filter
      (fun l => !(jsTrim l).isEmpty)).length < 2
  · rw [if_pos h2] at hp; cases hp
  · rw [if_neg h2] at hp
    by_cases hcc : (parseRow (((splitOnChar '\n' (jsTrim input)).filter
        (fun l => !(jsTrim l).isEmpty)).getD 0 [])).length ≠
        (parseRow (((splitOnChar '\n' (jsTrim input)).filter
        (fun l => !(jsTrim l).isEmpty)).getD 1 [])).length
    · rw [if_pos hcc] at hp; cases hp
    · rw [if_neg hcc] at hp
      cases hp
      have hnl : ∀ l ∈ (splitOnChar '\n' (jsTrim input)).filter
          (fun l => !(jsTrim l).isEmpty), '\n' ∉ l := by
        intro l hl
        exact mem_splitOnChar_not_sep (List.mem_of_mem_filter hl)
      refine ⟨?_, ?_, ?_, ?_⟩
      · simp only [List.length_map]
        omega
      · intro r hr
        simp only [List.mem_map] at hr
        obtain ⟨r0, ⟨line, hline, rfl⟩, rfl⟩ := hr
        simp only [List.length_map, padTruncate_length]
      · intro h hh
        simp only [List.mem_map] at hh
        obtain ⟨c, hc, rfl⟩ := hh
        apply goodCell_escapeHtml
        apply goodCell_parseRow _ c hc
        apply hnl
        rw [List.getD_eq_getElem _ _ (by omega)]
        exact List.getElem_mem _
      · intro r hr c hc
        simp only [List.mem_map] at hr
        obtain ⟨r0, ⟨line, hline, rfl⟩, rfl⟩ := hr
        simp only [List.mem_map] at hc
        obtain ⟨c0, hc0, rfl⟩ := hc
        apply goodCell_escapeHtml
        apply goodCell_normalize
        rcases mem_padTruncate hc0 with h' | h'
        · apply goodCell_parseRow _ c0 h'
          apply hnl
          exact List.mem_of_mem_drop hline
        · exact h' ▸ goodCell_nil
theorem mdLine_head (cells : List Str) : (mdLine cells).head? = some '|' := rfl

theorem mdLine_last (cells : List Str) : (mdLine cells).getLast? = some '|' := by
  rw [mdLine, List.getLast?_append]
  rw [show (toStr " |").getLast? = some '|' from rfl]
  rfl

theorem goodEnds_mdLine (cells : List Str) : GoodEnds (mdLine cells) := by
  constructor
  · intro x hx
    rw [mdLine_head] at hx
    simp at hx
    subst hx
    decide
  · intro x hx
    rw [mdLine_last] at hx
    simp at hx
    subst hx
    decide

theorem mdLine_trim_nonblank (cells : List Str) :
    (!(jsTrim (mdLine cells)).isEmpty) = true := by
  rw [jsTrim_eq_self (goodEnds_mdLine cells)]
  cases hm : (mdLine cells) with
  | nil =>
    have := mdLine_head cells
    rw [hm] at this
    simp at this
  | cons a l => simp

theorem mem_joinSep {sep : Str} :
    ∀ {cells : List Str} {x : Char}, x ∈ joinSep sep cells →
    (∃ c ∈ cells, x ∈ c) ∨ x ∈ sep := by
  intro cells
  induction cells with
  | nil => intro x hx; simp [joinSep] at hx
  | cons c cs ih =>
    intro x hx
    cases cs with
    | nil =>
      rw [joinSep] at hx
      exact Or.inl ⟨c, by simp, hx⟩
    | cons c2 cs2 =>
      have hj : joinSep sep (c :: c2 :: cs2) = c ++ sep ++ joinSep sep (c2 :: cs2) := rfl
      rw [hj] at hx
      rcases List.mem_append.mp hx with h | h
      · rcases List.mem_append.mp h with h' | h'
        · exact Or.inl ⟨c, by simp, h'⟩
        · exact Or.inr h'
      · rcases ih h with ⟨d, hd, hxd⟩ | h'
        · exact Or.inl ⟨d, List.mem_cons_of_mem c hd, hxd⟩
        · exact Or.inr h'

theorem nl_not_mem_mdLine {cells : List Str} (h : ∀ c ∈ cells, '\n' ∉ c) :
    '\n' ∉ mdLine cells := by
  intro hm
  rw [mdLine] at hm
  rcases List.mem_append.mp hm with h' | h'
  · rcases List.mem_append.mp h' with h'' | h''
    · exact absurd h'' (by decide)
    · rcases mem_joinSep h'' with ⟨d, hd, hxd⟩ | h'''
      · exact h d hd hxd
      · exact absurd h''' (by decide)
  · exact absurd h' (by decide)

theorem joinSep_head {sep : Str} {c : Char} (l : Str) (ls : List Str)
    (h : l.head? = some c) : (joinSep sep (l :: ls)).head? = some c := by
  cases ls with
  | nil => rw [joinSep]; exact h
  | cons l2 ls2 =>
    have hj : joinSep sep (l :: l2 :: ls2) = l ++ sep ++ joinSep sep (l2 :: ls2) := rfl
    rw [hj]
    rw [List.head?_append, List.head?_append, h]
    rfl

theorem joinSep_last {sep : Str} {c : Char} :
    ∀ (ls : List Str), ls ≠ [] → (∀ l ∈ ls, l.getLast? = some c) →
    (joinSep sep ls).getLast? = some c
  | [], h, _ => absurd rfl h
  | [l], _, hf => by rw [joinSep]; exact hf l (by simp)
  | l :: l2 :: ls, _, hf => by
    have hj : joinSep sep (l :: l2 :: ls) = l ++ sep ++ joinSep sep (l2 :: ls) := rfl
    rw [hj, List.getLast?_append]
    rw [joinSep_last (l2 :: ls) (by simp) (fun d hd => hf d (List.mem_cons_of_mem l hd))]
    rfl

theorem alignOfSep_alignMarkdown (a : Align) : alignOfSep (alignMarkdown a) = a := by
  cases a <;> decide

theorem goodCell_alignMarkdown (a : Align) : GoodCell (alignMarkdown a) := by
  cases a <;> exact ⟨⟨by decide, by decide⟩, by decide, by decide⟩

theorem noEsc_normalize {c : Str} (h : NoEsc c) : NoEsc (normalizeCheckValue c) := by
  rcases normalize_cases c with hn | hn | hn <;> rw [hn]
  · exact (by decide : ∀ x ∈ toStr "✅", escChar x = [x])
  · exact (by decide : ∀ x ∈ toStr "❌", escChar x = [x])
  · exact h
/-- C1 (amended): for any model produced by parseMarkdown that has at least
one column and no HTML-escapable character (&, <, >, double or single quote)
in any header or cell, serializing to Markdown and parsing again yields the
same headers and alignments, and the rows with the Value Normalizer
re-applied to every cell.  The escapable characters must be excluded because
escapeHtml runs at every parse and is not idempotent: a literal & parses to
&amp; and re-parses to &amp;amp;. -/
theorem c1_markdown_roundtrip (input : Str) (m : TableModel)
    (hp : parseMarkdown input = .ok m)
    (hC : m.headers ≠ [])
    (hescH : ∀ h ∈ m.headers, NoEsc h)
    (hescC : ∀ r ∈ m.rows, ∀ c ∈ r, NoEsc c) :
    parseMarkdown (serializeMarkdown m) =
      .ok ⟨m.headers, m.alignments,
           m.rows.map (fun r => r.map normalizeCheckValue)⟩ := by
  obtain ⟨hlen, hrows, hgh, hgc⟩ := parseMarkdown_wf hp
  have hgsep : ∀ c ∈ m.alignments.map alignMarkdown, GoodCell c := by
    intro c hc
    rw [List.mem_map] at hc
    obtain ⟨a, _, rfl⟩ := hc
    exact goodCell_alignMarkdown a
  have hrowcells : ∀ r ∈ m.rows, ∀ c ∈ r.map normalizeCheckValue, GoodCell c := by
    intro r hr c hc
    rw [List.mem_map] at hc
    obtain ⟨c0, hc0, rfl⟩ := hc
    exact goodCell_normalize (hgc r hr c0 hc0)
  have hLnl : ∀ l ∈ (mdLine m.headers :: mdLine (m.alignments.map alignMarkdown) ::
      m.rows.map (fun row => mdLine (row.map normalizeCheckValue))), '\n' ∉ l := by
    intro l hl
    rcases List.mem_cons.mp hl with rfl | hl
    · exact nl_not_mem_mdLine (fun c hc => (hgh c hc).2.2)
    · rcases List.mem_cons.mp hl with rfl | hl
      · exact nl_not_mem_mdLine (fun c hc => (hgsep c hc).2.2)
      · rw [List.mem_map] at hl
        obtain ⟨r, hr, rfl⟩ := hl
        exact nl_not_mem_mdLine (fun c hc => (hrowcells r hr c hc).2.2)
  have hall : ∀ l ∈ (mdLine m.headers :: mdLine (m.alignments.map alignMarkdown) ::
      m.rows.map (fun row => mdLine (row.map normalizeCheckValue))),
      l.getLast? = some '|' := by
    intro l hl
    rcases List.mem_cons.mp hl with rfl | hl
    · exact mdLine_last _
    · rcases List.mem_cons.mp hl with rfl | hl
      · exact mdLine_last _
      · rw [List.mem_map] at hl
        obtain ⟨r, hr, rfl⟩ := hl
        exact mdLine_last _
  have hLgood : GoodEnds (serializeMarkdown m) := by
    rw [serializeMarkdown_eq_join]
    constructor
    · intro x hx
      rw [joinSep_head _ _ (mdLine_head m.headers)] at hx
      simp at hx
      subst hx
      decide
    · intro x hx
      rw [joinSep_last _ (by simp) hall] at hx
      simp at hx
      subst hx
      decide
  have hsplit : splitOnChar '\n' (jsTrim (serializeMarkdown m)) =
      mdLine m.headers :: mdLine (m.alignments.map alignMarkdown) ::
        m.rows.map (fun row => mdLine (row.map normalizeCheckValue)) := by
    rw [jsTrim_eq_self hLgood, serializeMarkdown_eq_join]
    rw [show toStr "\n" = ['\n'] from rfl]
    exact joinSep_lines_split _ (by simp) hLnl
  have hfilter : ((splitOnChar '\n' (jsTrim (serializeMarkdown m))).filter
      (fun l => !(jsTrim l).isEmpty)) =
      mdLine m.headers :: mdLine (m.alignments.map alignMarkdown) ::
        m.rows.map (fun row => mdLine (row.map normalizeCheckValue)) := by
    rw [hsplit, List.filter_eq_self]
    intro l hl
    rcases List.mem_cons.mp hl with rfl | hl
    · exact mdLine_trim_nonblank _
    · rcases List.mem_cons.mp hl with rfl | hl
      · exact mdLine_trim_nonblank _
      · rw [List.mem_map] at hl
        obtain ⟨r, hr, rfl⟩ := hl
        exact mdLine_trim_nonblank _
  have halign_ne : m.alignments ≠ [] := by
    intro h0
    rw [h0] at hlen
    simp at hlen
    exact hC (List.eq_nil_of_length_eq_zero hlen.symm)
  have hrow0 : parseRow (mdLine m.headers) = m.headers :=
    parseRow_mdLine m.headers hC (fun c hc => (hgh c hc).2.1)
      (fun c hc => (hgh c hc).1)
  have hrow1 : parseRow (mdLine (m.alignments.map alignMarkdown)) =
      m.alignments.map alignMarkdown :=
    parseRow_mdLine _ (by simp [halign_ne]) (fun c hc => (hgsep c hc).2.1)
      (fun c hc => (hgsep c hc).1)
  have hhd : m.headers.map escapeHtml = m.headers := by
    rw [List.map_congr_left (fun c hc => escapeHtml_eq_self (hescH c hc))]
    exact List.map_id _
  have hal : (m.alignments.map alignMarkdown).map alignOfSep = m.alignments := by
    rw [List.map_map]
    rw [List.map_congr_left (fun a _ => by
      simp only [Function.comp_apply]
      exact alignOfSep_alignMarkdown a)]
    exact List.map_id _
  have hrws : ((m.rows.map (fun row => mdLine (row.map normalizeCheckValue))).map
      (fun line => padTruncate m.headers.length (parseRow line))).map
      (fun row => row.map (fun cell => escapeHtml (normalizeCheckValue cell))) =
      m.rows.map (fun r => r.map normalizeCheckValue) := by
    rw [List.map_map, List.map_map]
    apply List.map_congr_left
    intro r hr
    simp only [Function.comp_apply]
    have hrne : r.map normalizeCheckValue ≠ [] := by
      intro h0
      have hlr := hrows r hr
      rw [List.map_eq_nil_iff] at h0
      rw [h0] at hlr
      simp at hlr
      exact hC (List.eq_nil_of_length_eq_zero hlr.symm)
    have h1 : parseRow (mdLine (r.map normalizeCheckValue)) = r.map normalizeCheckValue :=
      parseRow_mdLine _ hrne (fun c hc => (hrowcells r hr c hc).2.1)
        (fun c hc => (hrowcells r hr c hc).1)
    rw [h1]
    rw [padTruncate_id (by rw [List.length_map]; exact hrows r hr)]
    rw [List.map_map]
    apply List.map_congr_left
    intro c hc
    simp only [Function.comp_apply]
    rw [normalize_idem]
    exact escapeHtml_eq_self (noEsc_normalize (hescC r hr c hc))
  rw [parseMarkdown]
  simp only [hfilter]
  rw [if_neg (by simp only [List.length_cons]; omega)]
  simp only [List.getD_cons_zero, List.getD_cons_succ]
  rw [hrow0, hrow1]
  rw [if_neg (by simp [hlen])]
  simp only [List.drop_succ_cons, List.drop_zero]
  rw [hhd, hal, hrws]
/-- C1 counterexample: the model parsed from the Markdown table whose single
header cell is the text A&B has the header A&amp;B (escapeHtml runs inside
parseMarkdown), and serializing that model and parsing again yields the
header A&amp;amp;B, which differs from the original header — also after
re-applying the Value Normalizer.  The round-trip therefore fails on models
whose source contained an escapable character. -/
theorem c1_counterexample :
    parseMarkdown cexRoundIn = .ok mAmp ∧
    parseMarkdown (serializeMarkdown mAmp) =
      .ok ⟨[toStr "A&amp;amp;B"], [Align.left], []⟩ ∧
    [toStr "A&amp;amp;B"] ≠ mAmp.headers ∧
    [normalizeCheckValue (toStr "A&amp;amp;B")] ≠ mAmp.headers.map normalizeCheckValue := by
  refine ⟨by decide, by decide, by decide, by decide⟩

theorem c1_markdown_roundtrip_witness :
    parseMarkdown cwIn = .ok cwM ∧ cwM.headers ≠ [] ∧
    (∀ h ∈ cwM.headers, NoEsc h) ∧ (∀ r ∈ cwM.rows, ∀ c ∈ r, NoEsc c) ∧
    parseMarkdown (serializeMarkdown cwM) =
      .ok ⟨cwM.headers, cwM.alignments,
           cwM.rows.map (fun r => r.map normalizeCheckValue)⟩ :=
  ⟨by decide, by decide, by decide, by decide,
   c1_markdown_roundtrip cwIn cwM (by decide) (by decide) (by decide) (by decide)⟩
end Tabmd
